import Mathlib

set_option autoImplicit false

namespace FolEquality

/-- Terms of the first-order-logic equality engine, from `src/term.rs`:
`Literal` wraps an atom (instantiated at `Nat`), `Function` is an applied
term (symbol plus ordered arguments), `Normalizable` is structurally the
same but additionally eligible for alias expansion. -/
inductive Term where
  | Literal : Nat → Term
  | Function : Nat → List Term → Term
  | Normalizable : Nat → List Term → Term
deriving Repr

mutual

/-- Decidable structural (deep) equality of terms: the derived
`PartialEq`/`Eq` on the Rust `Term` enum. -/
def Term.decEq : (a b : Term) → Decidable (a = b)
  | .Literal a, .Literal b =>
    match Nat.decEq a b with
    | isTrue h => isTrue (by rw [h])
    | isFalse h => isFalse (by intro hc; injection hc with hh; exact h hh)
  | .Literal _, .Function _ _ => isFalse (by intro hc; exact Term.noConfusion hc)
  | .Literal _, .Normalizable _ _ => isFalse (by intro hc; exact Term.noConfusion hc)
  | .Function _ _, .Literal _ => isFalse (by intro hc; exact Term.noConfusion hc)
  | .Function s1 a1, .Function s2 a2 =>
    match Nat.decEq s1 s2, Term.decEqList a1 a2 with
    | isTrue h1, isTrue h2 => isTrue (by rw [h1, h2])
    | isFalse h1, _ => isFalse (by intro hc; injection hc with hh _; exact h1 hh)
    | _, isFalse h2 => isFalse (by intro hc; injection hc with _ hh; exact h2 hh)
  | .Function _ _, .Normalizable _ _ => isFalse (by intro hc; exact Term.noConfusion hc)
  | .Normalizable _ _, .Literal _ => isFalse (by intro hc; exact Term.noConfusion hc)
  | .Normalizable _ _, .Function _ _ => isFalse (by intro hc; exact Term.noConfusion hc)
  | .Normalizable s1 a1, .Normalizable s2 a2 =>
    match Nat.decEq s1 s2, Term.decEqList a1 a2 with
    | isTrue h1, isTrue h2 => isTrue (by rw [h1, h2])
    | isFalse h1, _ => isFalse (by intro hc; injection hc with hh _; exact h1 hh)
    | _, isFalse h2 => isFalse (by intro hc; injection hc with _ hh; exact h2 hh)

/-- Decidable pairwise equality of argument vectors. -/
def Term.decEqList : (as bs : List Term) → Decidable (as = bs)
  | [], [] => isTrue rfl
  | [], _ :: _ => isFalse (by intro hc; exact List.noConfusion hc)
  | _ :: _, [] => isFalse (by intro hc; exact List.noConfusion hc)
  | a :: as, b :: bs =>
    match Term.decEq a b, Term.decEqList as bs with
    | isTrue h1, isTrue h2 => isTrue (by rw [h1, h2])
    | isFalse h1, _ => isFalse (by intro hc; injection hc with hh _; exact h1 hh)
    | _, isFalse h2 => isFalse (by intro hc; injection hc with _ hh; exact h2 hh)

end

instance : DecidableEq Term := Term.decEq

/-- Comparison of two atoms (Rust `usize` ordering). -/
def ncmp (a b : Nat) : Ordering :=
  if a < b then .lt else if b < a then .gt else .eq

mutual

/-- The derived `Ord` on the Rust `Term` enum: variant tags in declaration
order (`Literal < Function < Normalizable`), then the fields
lexicographically (symbol first, then the argument vector). -/
def Term.cmp : Term → Term → Ordering
  | .Literal a, .Literal b => ncmp a b
  | .Literal _, .Function _ _ => .lt
  | .Literal _, .Normalizable _ _ => .lt
  | .Function _ _, .Literal _ => .gt
  | .Function s1 a1, .Function s2 a2 => (ncmp s1 s2).then (Term.cmpList a1 a2)
  | .Function _ _, .Normalizable _ _ => .lt
  | .Normalizable _ _, .Literal _ => .gt
  | .Normalizable _ _, .Function _ _ => .gt
  | .Normalizable s1 a1, .Normalizable s2 a2 => (ncmp s1 s2).then (Term.cmpList a1 a2)

/-- The derived `Ord` on `Vec<Term>`: lexicographic, a strict prefix is
smaller. -/
def Term.cmpList : List Term → List Term → Ordering
  | [], [] => .eq
  | [], _ :: _ => .lt
  | _ :: _, [] => .gt
  | a :: as, b :: bs => (Term.cmp a b).then (Term.cmpList as bs)

end

/-- An alias ("normalization") definition, from `src/premise.rs`:
a parameter list and a template term. -/
structure Normalization where
  parameters : List Nat
  equivalence : Term
deriving Repr, DecidableEq

/-- The fact base, from `src/premise.rs`. `equalities` models the
`BTreeMap<Term, BTreeSet<Term>>` as an association list whose keys are
strictly ascending in `Term.cmp` order and whose value sets are strictly
ascending lists; `normalizables` models `BTreeMap<Literal, Normalization>`
the same way. -/
structure Premise where
  equalities : List (Term × List Term)
  normalizables : List (Nat × Normalization)
deriving Repr, DecidableEq

mutual

/-- Substitution (`Term::apply` in src/substitution.rs): if the term equals
`fr` replace it by `to`, then — in either case — recurse into the children
of the (possibly just-replaced) term. The Rust function recurses without a
structural bound (replacement can re-introduce `fr` below itself), so the
embedding is fueled: `none` means the recursion exceeded `fuel` nested
calls. -/
def Term.apply : Nat → Term → Term → Term → Option Term
  | 0, _, _, _ => none
  | fuel+1, t, fr, toT =>
    let t2 := if t = fr then toT else t
    match t2 with
    | .Literal l => some (.Literal l)
    | .Function s args => (Term.applyList fuel args fr toT).map (Term.Function s)
    | .Normalizable s args => (Term.applyList fuel args fr toT).map (Term.Normalizable s)

/-- `Term.apply` mapped over an argument vector. -/
def Term.applyList : Nat → List Term → Term → Term → Option (List Term)
  | 0, _, _, _ => none
  | _+1, [], _, _ => some []
  | fuel+1, a :: as, fr, toT =>
    match Term.apply fuel a fr toT with
    | none => none
    | some a2 =>
      match Term.applyList fuel as fr toT with
      | none => none
      | some as2 => some (a2 :: as2)

end

/-- The sequential left-to-right substitution loop in
`Normalization::equivalence`: one `Term::apply` per (parameter, argument)
pair, first parameter first. -/
def applyFold : Nat → Term → List (Nat × Term) → Option Term
  | _, e, [] => some e
  | fuel, e, (p, a) :: rest =>
    match Term.apply fuel e (.Literal p) a with
    | none => none
    | some e2 => applyFold fuel e2 rest

/-- `Normalization::equivalence(arguments)` (src/premise.rs): `some none`
is Rust's `None` (argument count differs from parameter count),
`some (some e)` is Rust's `Some(e)`, and `none` means the substitution
itself did not finish within `fuel`. -/
def Normalization.equivalenceF (fuel : Nat) (n : Normalization)
    (arguments : List Term) : Option (Option Term) :=
  if n.parameters.length = arguments.length then
    match applyFold fuel n.equivalence (n.parameters.zip arguments) with
    | none => none
    | some e => some (some e)
  else some none

/-- `BTreeSet<Term>::insert`, on a strictly ascending list. -/
def insertSet (x : Term) : List Term → List Term
  | [] => [x]
  | y :: ys =>
    match Term.cmp x y with
    | .lt => x :: y :: ys
    | .eq => y :: ys
    | .gt => y :: insertSet x ys

/-- `equalities.entry(k).or_default().insert(v)`, on the sorted
association-list model of the `BTreeMap`. -/
def addEquality (k v : Term) : List (Term × List Term) → List (Term × List Term)
  | [] => [(k, [v])]
  | (k2, s) :: rest =>
    match Term.cmp k k2 with
    | .lt => (k, [v]) :: (k2, s) :: rest
    | .eq => (k2, insertSet v s) :: rest
    | .gt => (k2, s) :: addEquality k v rest

/-- `Premise::default()`: both maps empty. -/
def Premise.default : Premise := ⟨[], []⟩

/-- `Premise::insert` (src/premise.rs): add `term2` to `term1`'s
equivalence set and `term1` to `term2`'s, in that order. -/
def Premise.insert (p : Premise) (term1 term2 : Term) : Premise :=
  { p with equalities := addEquality term2 term1 (addEquality term1 term2 p.equalities) }

/-- `Premise::new_with_equalities`: repeated insertion into the default
premise. -/
def Premise.new_with_equalities (terms : List (Term × Term)) : Premise :=
  terms.foldl (fun p ab => p.insert ab.1 ab.2) Premise.default

/-- `Premise::get_normalization`. -/
def Premise.get_normalization (p : Premise) (symbol : Nat) : Option Normalization :=
  (p.normalizables.find? (fun kv => kv.1 == symbol)).map (·.2)

/-- `normalizables.entry(symbol)`: `some` of the new list if the key was
vacant, `none` if it was occupied. -/
def insertNormAux (s : Nat) (n : Normalization) :
    List (Nat × Normalization) → Option (List (Nat × Normalization))
  | [] => some [(s, n)]
  | (k, m) :: rest =>
    match ncmp s k with
    | .lt => some ((s, n) :: (k, m) :: rest)
    | .eq => none
    | .gt =>
      match insertNormAux s n rest with
      | none => none
      | some r => some ((k, m) :: r)

/-- `Premise::insert_normalization` (src/premise.rs): store the definition
and return `true` on a vacant entry, return `false` and change nothing on
an occupied one. -/
def Premise.insert_normalization (p : Premise) (symbol : Nat)
    (parameters : List Nat) (equivalence : Term) : Bool × Premise :=
  match insertNormAux symbol ⟨parameters, equivalence⟩ p.normalizables with
  | some l => (true, { p with normalizables := l })
  | none => (false, p)

/-- `premise.equalities().get(t)` flattened: the equivalence set of `t`,
`[]` when `t` is not a key (iterating over `[]` is the same as skipping
the `if let Some` block in the Rust code). -/
def findEqs (m : List (Term × List Term)) (t : Term) : List Term :=
  match m.find? (fun kv => kv.1 == t) with
  | some kv => kv.2
  | none => []

/-- The equivalence set of `t` in the premise. -/
def Premise.lookupEqs (p : Premise) (t : Term) : List Term :=
  findEqs p.equalities t

/-- The scratch set of in-progress ordered pairs (`HashSet<(Term, Term)>`
in `dfs`); only membership is ever observed, so a list models it. -/
abbrev Visited := List (Term × Term)

/-- `visited.remove(&(term, term2))`. -/
def removePair (term term2 : Term) (v : Visited) : Visited :=
  v.filter (fun q => decide ¬(q = (term, term2)))

mutual

/-- The recursive search helper `dfs` (src/lib.rs, lines 85-170), fueled:
every nested call of any of the engine's functions costs one unit of fuel
and `none` means the computation did not finish within the given fuel (the
Rust original recurses unboundedly on such inputs). The `Bool` result is
paired with the updated visited set, since the Rust code threads it by
mutable reference. -/
def dfs : Nat → Premise → Term → Term → Visited → Option (Bool × Visited)
  | 0, _, _, _, _ => none
  | fuel+1, premise, term, term2, visited =>
    if term = term2 then some (true, visited) else
    if (term, term2) ∈ visited then some (false, visited) else
    let v1 := (term, term2) :: visited
    match equals_by_unification fuel premise term term2 v1 with
    | none => none
    | some (true, v2) => some (true, removePair term term2 v2)
    | some (false, v2) =>
      match equals_by_normalization fuel premise term term2 v2 with
      | none => none
      | some (true, v3) => some (true, removePair term term2 v3)
      | some (false, v3) =>
        match dfsLoopLeft fuel premise (premise.lookupEqs term) term2 v3 with
        | none => none
        | some (true, v4) => some (true, removePair term term2 v4)
        | some (false, v4) =>
          match dfsLoopRight fuel premise term (premise.lookupEqs term2) v4 with
          | none => none
          | some (true, v5) => some (true, removePair term term2 v5)
          | some (false, v5) =>
            match premiseLoop fuel premise premise.equalities term term2 v5 with
            | none => none
            | some (true, v6) => some (true, removePair term term2 v6)
            | some (false, v6) => some (false, v6)

/-- `equals_by_unification` (src/lib.rs, lines 19-58): same shape, same
symbol, same arity, then pairwise recursive equality of the arguments. -/
def equals_by_unification : Nat → Premise → Term → Term → Visited → Option (Bool × Visited)
  | 0, _, _, _, _ => none
  | fuel+1, premise, term1, term2, visited =>
    match term1, term2 with
    | .Function name1 args1, .Function name2 args2 =>
      if name1 = name2 ∧ args1.length = args2.length
      then unifyArgs fuel premise args1 args2 visited
      else some (false, visited)
    | .Normalizable name1 args1, .Normalizable name2 args2 =>
      if name1 = name2 ∧ args1.length = args2.length
      then unifyArgs fuel premise args1 args2 visited
      else some (false, visited)
    | _, _ => some (false, visited)

/-- The `zip` loop inside `equals_by_unification`: stop at the first
argument pair `dfs` rejects. -/
def unifyArgs : Nat → Premise → List Term → List Term → Visited → Option (Bool × Visited)
  | 0, _, _, _, _ => none
  | _+1, _, [], _, visited => some (true, visited)
  | _+1, _, _ :: _, [], visited => some (true, visited)
  | fuel+1, premise, a :: as, b :: bs, visited =>
    match dfs fuel premise a b visited with
    | none => none
    | some (false, v2) => some (false, v2)
    | some (true, v2) => unifyArgs fuel premise as bs v2

/-- `equals_by_normalization` (src/lib.rs, lines 60-83). When `term1` is
`Normalizable` with a registered alias of matching arity the Rust code
`return`s the result of testing the expansion against `term2` directly;
only when that path is inapplicable does control fall through to the
symmetric `term2` block, here `normalizationSnd`. -/
def equals_by_normalization : Nat → Premise → Term → Term → Visited → Option (Bool × Visited)
  | 0, _, _, _, _ => none
  | fuel+1, premise, term1, term2, visited =>
    match term1 with
    | .Normalizable s args =>
      match premise.get_normalization s with
      | some n =>
        match Normalization.equivalenceF fuel n args with
        | none => none
        | some (some equivalence) => dfs fuel premise equivalence term2 visited
        | some none => normalizationSnd fuel premise term1 term2 visited
      | none => normalizationSnd fuel premise term1 term2 visited
    | _ => normalizationSnd fuel premise term1 term2 visited

/-- The second `if let` block of `equals_by_normalization`: expand `term2`
and test `term1` against the expansion. -/
def normalizationSnd : Nat → Premise → Term → Term → Visited → Option (Bool × Visited)
  | 0, _, _, _, _ => none
  | fuel+1, premise, term1, term2, visited =>
    match term2 with
    | .Normalizable s args =>
      match premise.get_normalization s with
      | some n =>
        match Normalization.equivalenceF fuel n args with
        | none => none
        | some (some equivalence) => dfs fuel premise term1 equivalence visited
        | some none => some (false, visited)
      | none => some (false, visited)
    | _ => some (false, visited)

/-- A `for equivalence in equivalences { if dfs(equivalence, term2) ... }`
loop (the direct-fact lookup on `term`'s side, also reused for the value
sets in the premise loop). -/
def dfsLoopLeft : Nat → Premise → List Term → Term → Visited → Option (Bool × Visited)
  | 0, _, _, _, _ => none
  | _+1, _, [], _, visited => some (false, visited)
  | fuel+1, premise, e :: es, term2, visited =>
    match dfs fuel premise e term2 visited with
    | none => none
    | some (true, v2) => some (true, v2)
    | some (false, v2) => dfsLoopLeft fuel premise es term2 v2

/-- A `for equivalence in equivalences { if dfs(term, equivalence) ... }`
loop (the direct-fact lookup on `term2`'s side, also reused for the value
sets in the premise loop). -/
def dfsLoopRight : Nat → Premise → Term → List Term → Visited → Option (Bool × Visited)
  | 0, _, _, _, _ => none
  | _+1, _, _, [], visited => some (false, visited)
  | fuel+1, premise, term1, e :: es, visited =>
    match dfs fuel premise term1 e visited with
    | none => none
    | some (true, v2) => some (true, v2)
    | some (false, v2) => dfsLoopRight fuel premise term1 es v2

/-- The final `for (key, values) in premise.equalities()` loop of `dfs`
(src/lib.rs, lines 131-167), first sub-branch: `term` unifies with `key`,
then every `value` is tested against `term2`. -/
def premiseLoop : Nat → Premise → List (Term × List Term) → Term → Term → Visited → Option (Bool × Visited)
  | 0, _, _, _, _, _ => none
  | _+1, _, [], _, _, visited => some (false, visited)
  | fuel+1, premise, (key, values) :: rest, term, term2, visited =>
    match equals_by_unification fuel premise term key visited with
    | none => none
    | some (true, v2) =>
      match dfsLoopLeft fuel premise values term2 v2 with
      | none => none
      | some (true, v3) => some (true, v3)
      | some (false, v3) => premiseStage2 fuel premise key values rest term term2 v3
    | some (false, v2) => premiseStage2 fuel premise key values rest term term2 v2

/-- Second sub-branch of the premise loop: `key` unifies with `term2`,
then `term` is tested against every `value`. -/
def premiseStage2 : Nat → Premise → Term → List Term → List (Term × List Term) → Term → Term → Visited → Option (Bool × Visited)
  | 0, _, _, _, _, _, _, _ => none
  | fuel+1, premise, key, values, rest, term, term2, visited =>
    match equals_by_unification fuel premise key term2 visited with
    | none => none
    | some (true, v2) =>
      match dfsLoopRight fuel premise term values v2 with
      | none => none
      | some (true, v3) => some (true, v3)
      | some (false, v3) => premiseStage3 fuel premise key values rest term term2 v3
    | some (false, v2) => premiseStage3 fuel premise key values rest term term2 v2

/-- Third sub-branch of the premise loop: `term` normalizes into `key`,
then every `value` is tested against `term2`. -/
def premiseStage3 : Nat → Premise → Term → List Term → List (Term × List Term) → Term → Term → Visited → Option (Bool × Visited)
  | 0, _, _, _, _, _, _, _ => none
  | fuel+1, premise, key, values, rest, term, term2, visited =>
    match equals_by_normalization fuel premise term key visited with
    | none => none
    | some (true, v2) =>
      match dfsLoopLeft fuel premise values term2 v2 with
      | none => none
      | some (true, v3) => some (true, v3)
      | some (false, v3) => premiseStage4 fuel premise key values rest term term2 v3
    | some (false, v2) => premiseStage4 fuel premise key values rest term term2 v2

/-- Fourth sub-branch of the premise loop: `key` normalizes into `term2`,
then `term` is tested against every `value`; afterwards the loop advances
to the next `(key, values)` entry. -/
def premiseStage4 : Nat → Premise → Term → List Term → List (Term × List Term) → Term → Term → Visited → Option (Bool × Visited)
  | 0, _, _, _, _, _, _, _ => none
  | fuel+1, premise, key, values, rest, term, term2, visited =>
    match equals_by_normalization fuel premise key term2 visited with
    | none => none
    | some (true, v2) =>
      match dfsLoopRight fuel premise term values v2 with
      | none => none
      | some (true, v3) => some (true, v3)
      | some (false, v3) => premiseLoop fuel premise rest term term2 v3
    | some (false, v2) => premiseLoop fuel premise rest term term2 v2

end

/-- The single entry point `equals(term1, term2, premise)` (src/lib.rs,
lines 174-183): run `dfs` with a fresh visited set; only the boolean is
returned to the caller. `none` means the Rust call would not have
completed within `fuel` nested calls. -/
def equals (fuel : Nat) (term1 term2 : Term) (premise : Premise) : Option Bool :=
  (dfs fuel premise term1 term2 []).map (·.1)

/-- The keys of the (modelled) `BTreeMap<Term, BTreeSet<Term>>` are
strictly ascending. -/
def EqsSorted (m : List (Term × List Term)) : Prop :=
  m.Pairwise (fun a b => Term.cmp a.1 b.1 = .lt)

/-- The keys of the (modelled) `BTreeMap<Literal, Normalization>` are
strictly ascending. -/
def NormsSorted (l : List (Nat × Normalization)) : Prop :=
  l.Pairwise (fun a b => a.1 < b.1)

/-- The symmetry property of the equalities map: `a` is recorded equal to
`b` exactly when `b` is recorded equal to `a`. -/
def EqsSymm (p : Premise) : Prop :=
  ∀ a b : Term, a ∈ p.lookupEqs b ↔ b ∈ p.lookupEqs a

/-- Premises reachable from `Premise::default()` through the two mutation
operations of `src/premise.rs`. -/
inductive Reachable : Premise → Prop where
  | base : Reachable Premise.default
  | insert (p : Premise) (t1 t2 : Term) : Reachable p → Reachable (p.insert t1 t2)
  | insertNorm (p : Premise) (s : Nat) (params : List Nat) (e : Term) :
      Reachable p → Reachable (p.insert_normalization s params e).2

mutual

/-- The equality theory generated by a premise: reflexivity, symmetry,
transitivity, congruence over the argument vectors of `Function` and
`Normalizable` terms, the asserted facts of the equalities map, and alias
expansion. -/
inductive EqTh (p : Premise) : Term → Term → Prop where
  | refl (t : Term) : EqTh p t t
  | symm {a b : Term} : EqTh p a b → EqTh p b a
  | trans {a b c : Term} : EqTh p a b → EqTh p b c → EqTh p a c
  | congFun (s : Nat) {a1 a2 : List Term} : EqThArgs p a1 a2 →
      EqTh p (.Function s a1) (.Function s a2)
  | congNorm (s : Nat) {a1 a2 : List Term} : EqThArgs p a1 a2 →
      EqTh p (.Normalizable s a1) (.Normalizable s a2)
  | fact {t : Term} {vs : List Term} {e : Term} : (t, vs) ∈ p.equalities →
      e ∈ vs → EqTh p t e
  | expand {s : Nat} {args : List Term} {n : Normalization} {e : Term} {fuel : Nat} :
      p.get_normalization s = some n →
      Normalization.equivalenceF fuel n args = some (some e) →
      EqTh p (.Normalizable s args) e

/-- Pairwise membership of two argument vectors in the theory. -/
inductive EqThArgs (p : Premise) : List Term → List Term → Prop where
  | nil : EqThArgs p [] []
  | cons {a b : Term} {as bs : List Term} : EqTh p a b → EqThArgs p as bs →
      EqThArgs p (a :: as) (b :: bs)

end

mutual

/-- Node count of a term; used only to bound the fuel a query on the empty
premise needs. -/
def Term.size : Term → Nat
  | .Literal _ => 1
  | .Function _ args => 1 + Term.sizeList args
  | .Normalizable _ args => 1 + Term.sizeList args

/-- Total node count of an argument vector. -/
def Term.sizeList : List Term → Nat
  | [] => 0
  | a :: as => Term.size a + Term.sizeList as

end

/-- The C1 failing premise: the identity alias `sym0(p1) := p1`
(symbol 0, one parameter 1, equivalence `Literal 1`), registered through
`insert_normalization`. -/
def c1Premise : Premise :=
  (Premise.default.insert_normalization 0 [1] (.Literal 1)).2

/-- The C1 query term `sym0(f2(p1))`: the argument passed to the alias
contains the alias's own parameter atom. -/
def c1Term : Term := .Normalizable 0 [.Function 2 [.Literal 1]]

/-- The C5 failing premise: two nullary aliases, `sym0() := sym1()` and
the self-referential `sym1() := sym1()`. -/
def c5Premise : Premise :=
  ((Premise.default.insert_normalization 0 [] (.Normalizable 1 [])).2.insert_normalization
    1 [] (.Normalizable 1 [])).2

def c5T1 : Term := .Normalizable 0 []

def c5T2 : Term := .Normalizable 1 []

/-- The C6 premise: the single cyclic fact `lit0 ≡ f0(lit0)` built with
`new_with_equalities`. -/
def c6Premise : Premise :=
  Premise.new_with_equalities [(.Literal 0, .Function 0 [.Literal 0])]

def c6Lhs : Term := .Function 0 [.Literal 0]

def c6Rhs : Term :=
  .Function 0 [.Function 0 [.Function 0 [.Function 0 [.Literal 0]]]]

/-- The applicable alias expansion of a term: `some (some e)` when the
term is `Normalizable` with a registered alias of matching arity and the
substitution finishes within the fuel, `some none` when no expansion
applies, `none` when the substitution diverges at this fuel. -/
def expandF (fuel : Nat) (p : Premise) (t : Term) : Option (Option Term) :=
  match t with
  | .Normalizable s args =>
    match p.get_normalization s with
    | some n => Normalization.equivalenceF fuel n args
    | none => some none
  | _ => some none

/-- The C3 premise: aliases `sym0() := lit5` and `sym1() := sym0()`. -/
def c3Premise : Premise :=
  ((Premise.default.insert_normalization 0 [] (.Literal 5)).2.insert_normalization
    1 [] (.Normalizable 0 [])).2

def c3T1 : Term := .Normalizable 0 []

def c3T2 : Term := .Normalizable 1 []

/-- A visited set that makes the first expansion test fail: the pair
`(lit5, sym1())` is already in progress. -/
def c3Visited : Visited := [(.Literal 5, c3T2)]

mutual

/-- Modelled from the spec (§3 Normalization): scan the tree; on a node
equal to the replaced atom, splice in the replacement and continue
scanning inside the newly inserted subtree; otherwise scan the node's
children. Fueled, since the described procedure (like the code) re-scans
the replacement, which can contain the replaced atom again. -/
def specReplace : Nat → Term → Term → Term → Option Term
  | 0, _, _, _ => none
  | fuel+1, t, fr, toT =>
    if t = fr then specScan fuel toT fr toT else specScan fuel t fr toT

/-- Rebuild a node, scanning each child for further matches. -/
def specScan : Nat → Term → Term → Term → Option Term
  | _, .Literal l, _, _ => some (.Literal l)
  | fuel, .Function s args, fr, toT => (specScanList fuel args fr toT).map (Term.Function s)
  | fuel, .Normalizable s args, fr, toT =>
    (specScanList fuel args fr toT).map (Term.Normalizable s)

/-- Scan an argument vector left to right. -/
def specScanList : Nat → List Term → Term → Term → Option (List Term)
  | 0, _, _, _ => none
  | _+1, [], _, _ => some []
  | fuel+1, a :: as, fr, toT =>
    match specReplace fuel a fr toT with
    | none => none
    | some a2 =>
      match specScanList fuel as fr toT with
      | none => none
      | some as2 => some (a2 :: as2)

end

/-- Modelled from the spec (§3): the sequential substitution — one
parameter position at a time, first to last, each step replacing every
occurrence of the atomic term wrapping that parameter by the corresponding
argument. -/
def specSequential : Nat → Term → List (Nat × Term) → Option Term
  | _, e, [] => some e
  | fuel, e, (p, a) :: rest =>
    match specReplace fuel e (.Literal p) a with
    | none => none
    | some e2 => specSequential fuel e2 rest

/-- Modelled from the spec (§3): the expansion of a normalization at a
concrete argument list — no result when the argument count differs from
the parameter count, otherwise the template rewritten by the sequential
left-to-right substitution. -/
def specExpansion (fuel : Nat) (n : Normalization) (args : List Term) :
    Option (Option Term) :=
  if n.parameters.length = args.length then
    match specSequential fuel n.equivalence (n.parameters.zip args) with
    | none => none
    | some e => some (some e)
  else some none

/-! ### Basic facts about the term order -/

theorem ncmp_eq_iff (a b : Nat) : ncmp a b = .eq ↔ a = b := by
  unfold ncmp
  rcases Nat.lt_trichotomy a b with h | h | h
  · rw [if_pos h]; exact iff_of_false (by simp) (by omega)
  · rw [if_neg (by omega), if_neg (by omega)]; exact iff_of_true rfl h
  · rw [if_neg (by omega), if_pos h]; exact iff_of_false (by simp) (by omega)

theorem ncmp_lt_iff (a b : Nat) : ncmp a b = .lt ↔ a < b := by
  unfold ncmp
  rcases Nat.lt_trichotomy a b with h | h | h
  · rw [if_pos h]; exact iff_of_true rfl h
  · rw [if_neg (by omega), if_neg (by omega)]; exact iff_of_false (by simp) (by omega)
  · rw [if_neg (by omega), if_pos h]; exact iff_of_false (by simp) (by omega)

theorem ncmp_gt_iff (a b : Nat) : ncmp a b = .gt ↔ b < a := by
  unfold ncmp
  rcases Nat.lt_trichotomy a b with h | h | h
  · rw [if_pos h]; exact iff_of_false (by simp) (by omega)
  · rw [if_neg (by omega), if_neg (by omega)]; exact iff_of_false (by simp) (by omega)
  · rw [if_neg (by omega), if_pos h]; exact iff_of_true rfl h

theorem ncmp_swap (a b : Nat) : (ncmp a b).swap = ncmp b a := by
  unfold ncmp
  rcases Nat.lt_trichotomy a b with h | h | h
  · simp [h, Nat.lt_asymm h, Ordering.swap]
  · simp [h, Nat.lt_irrefl, Ordering.swap]
  · simp [h, Nat.lt_asymm h, Ordering.swap]

theorem then_eq_eq {x y : Ordering} : x.then y = .eq ↔ x = .eq ∧ y = .eq := by
  cases x <;> simp [Ordering.then]

theorem then_eq_lt {x y : Ordering} : x.then y = .lt ↔ x = .lt ∨ (x = .eq ∧ y = .lt) := by
  cases x <;> simp [Ordering.then]

theorem then_swap {x y : Ordering} : (x.then y).swap = x.swap.then y.swap := by
  cases x <;> cases y <;> simp [Ordering.then, Ordering.swap]

mutual

theorem Term.cmp_eq_iff : ∀ a b : Term, Term.cmp a b = .eq ↔ a = b
  | .Literal a, .Literal b => by simp [Term.cmp, ncmp_eq_iff]
  | .Literal _, .Function _ _ => by simp [Term.cmp]
  | .Literal _, .Normalizable _ _ => by simp [Term.cmp]
  | .Function _ _, .Literal _ => by simp [Term.cmp]
  | .Function s1 a1, .Function s2 a2 => by
      simp [Term.cmp, then_eq_eq, ncmp_eq_iff, Term.cmpList_eq_iff a1 a2]
  | .Function _ _, .Normalizable _ _ => by simp [Term.cmp]
  | .Normalizable _ _, .Literal _ => by simp [Term.cmp]
  | .Normalizable _ _, .Function _ _ => by simp [Term.cmp]
  | .Normalizable s1 a1, .Normalizable s2 a2 => by
      simp [Term.cmp, then_eq_eq, ncmp_eq_iff, Term.cmpList_eq_iff a1 a2]

theorem Term.cmpList_eq_iff : ∀ as bs : List Term, Term.cmpList as bs = .eq ↔ as = bs
  | [], [] => by simp [Term.cmpList]
  | [], _ :: _ => by simp [Term.cmpList]
  | _ :: _, [] => by simp [Term.cmpList]
  | a :: as, b :: bs => by
      simp [Term.cmpList, then_eq_eq, Term.cmp_eq_iff a b, Term.cmpList_eq_iff as bs]

end

mutual

theorem Term.cmp_swap : ∀ a b : Term, (Term.cmp a b).swap = Term.cmp b a
  | .Literal a, .Literal b => by simp [Term.cmp, ncmp_swap]
  | .Literal _, .Function _ _ => by simp [Term.cmp, Ordering.swap]
  | .Literal _, .Normalizable _ _ => by simp [Term.cmp, Ordering.swap]
  | .Function _ _, .Literal _ => by simp [Term.cmp, Ordering.swap]
  | .Function s1 a1, .Function s2 a2 => by
      simp [Term.cmp, then_swap, ncmp_swap, Term.cmpList_swap a1 a2]
  | .Function _ _, .Normalizable _ _ => by simp [Term.cmp, Ordering.swap]
  | .Normalizable _ _, .Literal _ => by simp [Term.cmp, Ordering.swap]
  | .Normalizable _ _, .Function _ _ => by simp [Term.cmp, Ordering.swap]
  | .Normalizable s1 a1, .Normalizable s2 a2 => by
      simp [Term.cmp, then_swap, ncmp_swap, Term.cmpList_swap a1 a2]

theorem Term.cmpList_swap : ∀ as bs : List Term, (Term.cmpList as bs).swap = Term.cmpList bs as
  | [], [] => by simp [Term.cmpList, Ordering.swap]
  | [], _ :: _ => by simp [Term.cmpList, Ordering.swap]
  | _ :: _, [] => by simp [Term.cmpList, Ordering.swap]
  | a :: as, b :: bs => by
      simp [Term.cmpList, then_swap, Term.cmp_swap a b, Term.cmpList_swap as bs]

end

mutual

theorem Term.cmp_lt_trans : ∀ a b c : Term,
    Term.cmp a b = .lt → Term.cmp b c = .lt → Term.cmp a c = .lt
  | .Literal x, .Literal y, .Literal z => by
      simp only [Term.cmp, ncmp_lt_iff]; omega
  | .Literal _, .Literal _, .Function _ _ => by intro _ _; simp [Term.cmp]
  | .Literal _, .Literal _, .Normalizable _ _ => by intro _ _; simp [Term.cmp]
  | .Literal _, .Function _ _, .Literal _ => by intro _ h2; simp [Term.cmp] at h2
  | .Literal _, .Function _ _, .Function _ _ => by intro _ _; simp [Term.cmp]
  | .Literal _, .Function _ _, .Normalizable _ _ => by intro _ _; simp [Term.cmp]
  | .Literal _, .Normalizable _ _, .Literal _ => by intro _ h2; simp [Term.cmp] at h2
  | .Literal _, .Normalizable _ _, .Function _ _ => by intro _ h2; simp [Term.cmp] at h2
  | .Literal _, .Normalizable _ _, .Normalizable _ _ => by intro _ _; simp [Term.cmp]
  | .Function _ _, .Literal _, _ => by intro h1 _; simp [Term.cmp] at h1
  | .Function _ _, .Function _ _, .Literal _ => by intro _ h2; simp [Term.cmp] at h2
  | .Function s1 a1, .Function s2 a2, .Function s3 a3 => by
      simp only [Term.cmp, then_eq_lt, ncmp_lt_iff, ncmp_eq_iff]
      rintro (h1 | ⟨e1, h1⟩) (h2 | ⟨e2, h2⟩)
      · left; omega
      · left; omega
      · left; omega
      · right; exact ⟨by omega, Term.cmpList_lt_trans a1 a2 a3 h1 h2⟩
  | .Function _ _, .Function _ _, .Normalizable _ _ => by intro _ _; simp [Term.cmp]
  | .Function _ _, .Normalizable _ _, .Literal _ => by intro _ h2; simp [Term.cmp] at h2
  | .Function _ _, .Normalizable _ _, .Function _ _ => by intro _ h2; simp [Term.cmp] at h2
  | .Function _ _, .Normalizable _ _, .Normalizable _ _ => by intro _ _; simp [Term.cmp]
  | .Normalizable _ _, .Literal _, _ => by intro h1 _; simp [Term.cmp] at h1
  | .Normalizable _ _, .Function _ _, _ => by intro h1 _; simp [Term.cmp] at h1
  | .Normalizable _ _, .Normalizable _ _, .Literal _ => by intro _ h2; simp [Term.cmp] at h2
  | .Normalizable _ _, .Normalizable _ _, .Function _ _ => by intro _ h2; simp [Term.cmp] at h2
  | .Normalizable s1 a1, .Normalizable s2 a2, .Normalizable s3 a3 => by
      simp only [Term.cmp, then_eq_lt, ncmp_lt_iff, ncmp_eq_iff]
      rintro (h1 | ⟨e1, h1⟩) (h2 | ⟨e2, h2⟩)
      · left; omega
      · left; omega
      · left; omega
      · right; exact ⟨by omega, Term.cmpList_lt_trans a1 a2 a3 h1 h2⟩

theorem Term.cmpList_lt_trans : ∀ as bs cs : List Term,
    Term.cmpList as bs = .lt → Term.cmpList bs cs = .lt → Term.cmpList as cs = .lt
  | [], [], _ => by intro h1 _; simp [Term.cmpList] at h1
  | [], _ :: _, [] => by intro _ h2; simp [Term.cmpList] at h2
  | [], _ :: _, _ :: _ => by intro _ _; simp [Term.cmpList]
  | _ :: _, [], _ => by intro h1 _; simp [Term.cmpList] at h1
  | _ :: _, _ :: _, [] => by intro _ h2; simp [Term.cmpList] at h2
  | a :: as, b :: bs, c :: cs => by
      simp only [Term.cmpList, then_eq_lt, Term.cmp_eq_iff]
      rintro (h1 | ⟨e1, h1⟩) (h2 | ⟨e2, h2⟩)
      · exact Or.inl (Term.cmp_lt_trans a b c h1 h2)
      · subst e2; exact Or.inl h1
      · subst e1; exact Or.inl h2
      · subst e1; subst e2; exact Or.inr ⟨rfl, Term.cmpList_lt_trans as bs cs h1 h2⟩

end

/-- Reflexivity: a term compares equal to itself. -/
theorem Term.cmp_refl (a : Term) : Term.cmp a a = .eq := (Term.cmp_eq_iff a a).mpr rfl

/-- `cmp a b = .gt` exactly when `cmp b a = .lt`. -/
theorem Term.cmp_gt_iff_lt (a b : Term) : Term.cmp a b = .gt ↔ Term.cmp b a = .lt := by
  rw [← Term.cmp_swap b a]
  cases Term.cmp b a <;> simp [Ordering.swap]

theorem Term.cmp_lt_ne {a b : Term} (h : Term.cmp a b = .lt) : a ≠ b := by
  intro hab
  rw [hab, Term.cmp_refl] at h
  exact absurd h (by simp)

/-! ### The fact base: sortedness and the symmetry invariant -/

theorem mem_insertSet (x e : Term) : ∀ s : List Term, x ∈ insertSet e s ↔ x = e ∨ x ∈ s
  | [] => by simp [insertSet]
  | y :: ys => by
    unfold insertSet
    rcases hcmp : Term.cmp e y with _ | _ | _
    · simp
    · rw [Term.cmp_eq_iff] at hcmp
      subst hcmp
      simp only [List.mem_cons]
      constructor
      · intro h; exact Or.inr h
      · rintro ((rfl | rfl) | h) <;> simp [*]
    · simp only [List.mem_cons, mem_insertSet x e ys]
      tauto

theorem findEqs_nil (t : Term) : findEqs [] t = [] := rfl

theorem findEqs_cons (k : Term) (s : List Term) (tl : List (Term × List Term)) (t : Term) :
    findEqs ((k, s) :: tl) t = if k = t then s else findEqs tl t := by
  unfold findEqs
  by_cases h : k = t
  · rw [List.find?_cons_of_pos _ (by simp [h]), if_pos h]
  · rw [List.find?_cons_of_neg _ (by simp [h]), if_neg h]

theorem addEquality_keys (k v : Term) :
    ∀ m : List (Term × List Term), ∀ x ∈ addEquality k v m, x.1 = k ∨ x.1 ∈ m.map Prod.fst
  | [] => by simp [addEquality]
  | (k2, s) :: rest => by
    unfold addEquality
    rcases hcmp : Term.cmp k k2 with _ | _ | _
    · intro x hx
      simp only [List.mem_cons] at hx
      rcases hx with hx | hx | hx
      · subst hx; exact Or.inl rfl
      · subst hx; simp
      · exact Or.inr (by
          simp only [List.map_cons, List.mem_cons]
          exact Or.inr (List.mem_map_of_mem Prod.fst hx))
    · intro x hx
      simp only [List.mem_cons] at hx
      rcases hx with hx | hx
      · subst hx; simp
      · exact Or.inr (by
          simp only [List.map_cons, List.mem_cons]
          exact Or.inr (List.mem_map_of_mem Prod.fst hx))
    · intro x hx
      simp only [List.mem_cons] at hx
      rcases hx with hx | hx
      · subst hx; simp
      · rcases addEquality_keys k v rest x hx with h | h
        · exact Or.inl h
        · exact Or.inr (by
            simp only [List.map_cons, List.mem_cons]
            exact Or.inr h)

theorem addEquality_sorted (k v : Term) :
    ∀ m : List (Term × List Term), EqsSorted m → EqsSorted (addEquality k v m)
  | [] => by intro _; simp [addEquality, EqsSorted]
  | (k2, s) :: rest => by
    intro hs
    rw [EqsSorted, List.pairwise_cons] at hs
    obtain ⟨hhd, htl⟩ := hs
    unfold addEquality
    rcases hcmp : Term.cmp k k2 with _ | _ | _
    · rw [EqsSorted, List.pairwise_cons]
      refine ⟨?_, List.pairwise_cons.mpr ⟨hhd, htl⟩⟩
      intro b hb
      simp only [List.mem_cons] at hb
      rcases hb with hb | hb
      · subst hb; exact hcmp
      · exact Term.cmp_lt_trans _ _ _ hcmp (hhd b hb)
    · rw [EqsSorted, List.pairwise_cons]
      exact ⟨fun b hb => hhd b hb, htl⟩
    · rw [EqsSorted, List.pairwise_cons]
      refine ⟨?_, addEquality_sorted k v rest htl⟩
      intro b hb
      rcases addEquality_keys k v rest b hb with h | h
      · rw [h]; exact (Term.cmp_gt_iff_lt k k2).mp hcmp
      · simp only [List.mem_map] at h
        obtain ⟨z, hz, hz1⟩ := h
        rw [← hz1]
        exact hhd z hz

theorem findEqs_addEquality_other (k v a : Term) (hne : a ≠ k) :
    ∀ m : List (Term × List Term), findEqs (addEquality k v m) a = findEqs m a
  | [] => by
    rw [addEquality, findEqs_cons, if_neg (fun h => hne h.symm)]
  | (k2, s) :: rest => by
    unfold addEquality
    rcases hcmp : Term.cmp k k2 with _ | _ | _
    · rw [findEqs_cons, if_neg (fun h => hne h.symm)]
    · rw [Term.cmp_eq_iff] at hcmp
      subst hcmp
      rw [findEqs_cons, findEqs_cons]
      by_cases h : k = a
      · exact absurd h.symm hne
      · rw [if_neg h, if_neg h]
    · rw [findEqs_cons, findEqs_cons]
      by_cases h : k2 = a
      · rw [if_pos h, if_pos h]
      · rw [if_neg h, if_neg h]
        exact findEqs_addEquality_other k v a hne rest

theorem findEqs_not_key (t : Term) :
    ∀ m : List (Term × List Term), (∀ x ∈ m, x.1 ≠ t) → findEqs m t = []
  | [] => fun _ => rfl
  | (k2, s) :: rest => by
    intro h
    rw [findEqs_cons, if_neg (h (k2, s) (by simp))]
    exact findEqs_not_key t rest (fun x hx => h x (by simp [hx]))

theorem findEqs_addEquality_self (k v : Term) :
    ∀ m : List (Term × List Term), EqsSorted m →
      findEqs (addEquality k v m) k = insertSet v (findEqs m k)
  | [] => by intro _; rw [addEquality, findEqs_cons, if_pos rfl, findEqs_nil, insertSet]
  | (k2, s) :: rest => by
    intro hs
    rw [EqsSorted, List.pairwise_cons] at hs
    obtain ⟨hhd, htl⟩ := hs
    unfold addEquality
    rcases hcmp : Term.cmp k k2 with _ | _ | _
    · rw [findEqs_cons, if_pos rfl, findEqs_cons, if_neg (Term.cmp_lt_ne hcmp).symm]
      rw [findEqs_not_key k rest ?_, insertSet]
      intro x hx heq
      have h2 := hhd x hx
      rw [heq] at h2
      exact absurd (Term.cmp_lt_trans k k2 k hcmp h2) (by rw [Term.cmp_refl]; simp)
    · rw [Term.cmp_eq_iff] at hcmp
      subst hcmp
      rw [findEqs_cons, if_pos rfl, findEqs_cons, if_pos rfl]
    · have hne : k2 ≠ k := Term.cmp_lt_ne ((Term.cmp_gt_iff_lt k k2).mp hcmp)
      rw [findEqs_cons, if_neg hne, findEqs_cons, if_neg hne]
      exact findEqs_addEquality_self k v rest htl

theorem findEqs_addEquality (k v a : Term) (m : List (Term × List Term)) (hs : EqsSorted m) :
    findEqs (addEquality k v m) a =
      if a = k then insertSet v (findEqs m a) else findEqs m a := by
  by_cases h : a = k
  · rw [if_pos h, h]; exact findEqs_addEquality_self k v m hs
  · rw [if_neg h]; exact findEqs_addEquality_other k v a h m

/-- Membership in the equivalence sets after a `Premise::insert`:
exactly the two new directed facts plus everything already present. -/
theorem mem_lookupEqs_insert (p : Premise) (hs : EqsSorted p.equalities)
    (t1 t2 a b : Term) :
    a ∈ (p.insert t1 t2).lookupEqs b ↔
      (b = t1 ∧ a = t2) ∨ (b = t2 ∧ a = t1) ∨ a ∈ p.lookupEqs b := by
  have hs1 : EqsSorted (addEquality t1 t2 p.equalities) := addEquality_sorted _ _ _ hs
  simp only [Premise.lookupEqs, Premise.insert]
  rw [findEqs_addEquality t2 t1 b _ hs1]
  by_cases hb2 : b = t2
  · rw [if_pos hb2, mem_insertSet, findEqs_addEquality t1 t2 b _ hs]
    by_cases hb1 : b = t1
    · rw [if_pos hb1, mem_insertSet]
      tauto
    · rw [if_neg hb1]
      tauto
  · rw [if_neg hb2, findEqs_addEquality t1 t2 b _ hs]
    by_cases hb1 : b = t1
    · rw [if_pos hb1, mem_insertSet]
      tauto
    · rw [if_neg hb1]
      tauto

theorem insertNormAux_keys (s : Nat) (n : Normalization) :
    ∀ l l2 : List (Nat × Normalization), insertNormAux s n l = some l2 →
      ∀ x ∈ l2, x.1 = s ∨ x.1 ∈ l.map Prod.fst
  | [], l2 => by
    intro h x hx
    rw [insertNormAux] at h
    simp only [Option.some.injEq] at h
    subst h
    simp only [List.mem_singleton] at hx
    subst hx
    simp
  | (k, m) :: rest, l2 => by
    rw [insertNormAux]
    rcases hcmp : ncmp s k with _ | _ | _
    · intro h x hx
      simp only [Option.some.injEq] at h
      subst h
      simp only [List.mem_cons] at hx
      rcases hx with hx | hx | hx
      · subst hx; simp
      · subst hx; simp
      · exact Or.inr (by
          simp only [List.map_cons, List.mem_cons]
          exact Or.inr (List.mem_map_of_mem Prod.fst hx))
    · intro h; exact absurd h (by simp)
    · rcases hr : insertNormAux s n rest with _ | r
      · intro h; exact absurd h (by simp)
      · intro h x hx
        simp only [Option.some.injEq] at h
        subst h
        simp only [List.mem_cons] at hx
        rcases hx with hx | hx
        · subst hx; simp
        · rcases insertNormAux_keys s n rest r hr x hx with h | h
          · exact Or.inl h
          · exact Or.inr (by
              simp only [List.map_cons, List.mem_cons]
              exact Or.inr h)

theorem insertNormAux_sorted (s : Nat) (n : Normalization) :
    ∀ l l2 : List (Nat × Normalization), NormsSorted l → insertNormAux s n l = some l2 →
      NormsSorted l2
  | [], l2 => by
    intro _ h
    rw [insertNormAux] at h
    simp only [Option.some.injEq] at h
    subst h
    simp [NormsSorted]
  | (k, m) :: rest, l2 => by
    intro hs h
    rw [NormsSorted, List.pairwise_cons] at hs
    obtain ⟨hhd, htl⟩ := hs
    rw [insertNormAux] at h
    rcases hcmp : ncmp s k with _ | _ | _ <;> rw [hcmp] at h
    · simp only [Option.some.injEq] at h
      subst h
      rw [NormsSorted, List.pairwise_cons]
      refine ⟨?_, List.pairwise_cons.mpr ⟨hhd, htl⟩⟩
      intro b hb
      simp only [List.mem_cons] at hb
      rcases hb with hb | hb
      · subst hb; exact (ncmp_lt_iff s k).mp hcmp
      · have h1 := hhd b hb
        have h2 := (ncmp_lt_iff s k).mp hcmp
        omega
    · exact absurd h (by simp)
    · rcases hr : insertNormAux s n rest with _ | r <;> rw [hr] at h
      · exact absurd h (by simp)
      · simp only [Option.some.injEq] at h
        subst h
        rw [NormsSorted, List.pairwise_cons]
        refine ⟨?_, insertNormAux_sorted s n rest r htl hr⟩
        intro b hb
        rcases insertNormAux_keys s n rest r hr b hb with hb1 | hb1
        · rw [hb1]; exact (ncmp_gt_iff s k).mp hcmp
        · simp only [List.mem_map] at hb1
          obtain ⟨z, hz, hz1⟩ := hb1
          rw [← hz1]
          exact hhd z hz

/-- Every reachable premise has sorted maps and a symmetric equalities
map. -/
theorem reachable_invariant : ∀ p : Premise, Reachable p →
    EqsSorted p.equalities ∧ NormsSorted p.normalizables ∧ EqsSymm p := by
  intro p h
  induction h with
  | base =>
    refine ⟨by simp [Premise.default, EqsSorted], by simp [Premise.default, NormsSorted], ?_⟩
    intro a b
    simp [Premise.lookupEqs, Premise.default, findEqs_nil]
  | insert p t1 t2 _ ih =>
    obtain ⟨hsort, hnorm, hsym⟩ := ih
    refine ⟨addEquality_sorted _ _ _ (addEquality_sorted _ _ _ hsort), hnorm, ?_⟩
    intro a b
    rw [mem_lookupEqs_insert p hsort t1 t2 a b, mem_lookupEqs_insert p hsort t1 t2 b a,
      hsym a b]
    tauto
  | insertNorm p s params e _ ih =>
    obtain ⟨hsort, hnorm, hsym⟩ := ih
    rw [Premise.insert_normalization]
    rcases hr : insertNormAux s ⟨params, e⟩ p.normalizables with _ | r
    · exact ⟨hsort, hnorm, hsym⟩
    · exact ⟨hsort, insertNormAux_sorted s _ _ r hnorm hr, hsym⟩

theorem reachable_new_with_equalities (l : List (Term × Term)) :
    Reachable (Premise.new_with_equalities l) := by
  rw [Premise.new_with_equalities]
  suffices h : ∀ p : Premise, Reachable p →
      Reachable (l.foldl (fun p ab => p.insert ab.1 ab.2) p) by
    exact h Premise.default Reachable.base
  induction l with
  | nil => intro p hp; exact hp
  | cons ab rest ih =>
    intro p hp
    exact ih (p.insert ab.1 ab.2) (Reachable.insert p ab.1 ab.2 hp)

theorem insertNormAux_vacant (s : Nat) (n : Normalization) :
    ∀ l : List (Nat × Normalization), (∀ kv ∈ l, kv.1 ≠ s) →
      ∃ l2, insertNormAux s n l = some l2 ∧
        l2.find? (fun kv => kv.1 == s) = some (s, n)
  | [] => by
    intro _
    refine ⟨[(s, n)], rfl, ?_⟩
    rw [List.find?_cons_of_pos _ (by simp)]
  | (k, m) :: rest => by
    intro h
    have hks : k ≠ s := h (k, m) (by simp)
    rw [insertNormAux]
    rcases hcmp : ncmp s k with _ | _ | _
    · refine ⟨(s, n) :: (k, m) :: rest, rfl, ?_⟩
      rw [List.find?_cons_of_pos _ (by simp)]
    · rw [ncmp_eq_iff] at hcmp
      exact absurd hcmp.symm hks
    · obtain ⟨r, hr, hfind⟩ :=
        insertNormAux_vacant s n rest (fun kv hkv => h kv (by simp [hkv]))
      rw [hr]
      refine ⟨(k, m) :: r, rfl, ?_⟩
      rw [List.find?_cons_of_neg _ (by simp [hks]), hfind]

theorem insertNormAux_occupied (s : Nat) (n : Normalization) :
    ∀ l : List (Nat × Normalization), NormsSorted l →
      ∀ kv ∈ l, kv.1 = s → insertNormAux s n l = none
  | [] => by
    intro _ kv hkv
    exact absurd hkv (by simp)
  | (k, m) :: rest => by
    intro hs kv hkv hkv1
    rw [NormsSorted, List.pairwise_cons] at hs
    obtain ⟨hhd, htl⟩ := hs
    rw [insertNormAux]
    simp only [List.mem_cons] at hkv
    rcases hkv with hkv | hkv
    · subst hkv
      simp only at hkv1
      rcases hcmp : ncmp s k with _ | _ | _
      · rw [ncmp_lt_iff] at hcmp; omega
      · rfl
      · rw [ncmp_gt_iff] at hcmp; omega
    · have hlt := hhd kv hkv
      rcases hcmp : ncmp s k with _ | _ | _
      · rw [ncmp_lt_iff] at hcmp; omega
      · rfl
      · rw [insertNormAux_occupied s n rest htl kv hkv hkv1]

/-- C8: alias registration is first-wins. On a symbol with no registered
definition, `insert_normalization` stores the definition, reports `true`,
and the definition is subsequently returned by `get_normalization`; on an
already-defined symbol it reports `false`, leaves the premise unchanged,
and `get_normalization` still returns the previously registered
definition. -/
theorem c8_first_wins : ∀ (p : Premise) (s : Nat)
    (params params2 : List Nat) (e e2 : Term), Reachable p →
    (p.get_normalization s = none →
      (p.insert_normalization s params e).1 = true ∧
      (p.insert_normalization s params e).2.get_normalization s = some ⟨params, e⟩) ∧
    (∀ n : Normalization, p.get_normalization s = some n →
      p.insert_normalization s params2 e2 = (false, p) ∧
      (p.insert_normalization s params2 e2).2.get_normalization s = some n) := by
  intro p s params params2 e e2 hreach
  obtain ⟨-, hnorm, -⟩ := reachable_invariant p hreach
  constructor
  · intro hnone
    rw [Premise.get_normalization] at hnone
    have hfind : p.normalizables.find? (fun kv => kv.1 == s) = none := by
      rcases hf : p.normalizables.find? (fun kv => kv.1 == s) with _ | kv
      · exact hf
      · rw [hf] at hnone; simp at hnone
    have hnotmem : ∀ kv ∈ p.normalizables, kv.1 ≠ s := by
      rw [List.find?_eq_none] at hfind
      intro kv hkv h1
      have := hfind kv hkv
      simp [h1] at this
    obtain ⟨l2, hl2, hfind2⟩ := insertNormAux_vacant s ⟨params, e⟩ p.normalizables hnotmem
    rw [Premise.insert_normalization, hl2]
    refine ⟨rfl, ?_⟩
    rw [Premise.get_normalization]
    show (l2.find? (fun kv => kv.1 == s)).map (·.2) = _
    rw [hfind2]
    rfl
  · intro n hsome
    rw [Premise.get_normalization] at hsome
    rcases hf : p.normalizables.find? (fun kv => kv.1 == s) with _ | kv
    · rw [hf] at hsome
      exact absurd hsome (by simp)
    · rw [hf] at hsome
      simp only [Option.map_some', Option.some.injEq] at hsome
      have hmem : kv ∈ p.normalizables := List.mem_of_find?_eq_some hf
      have hpred : kv.1 = s := by
        have := List.find?_some hf
        simpa using this
      have hocc := insertNormAux_occupied s ⟨params2, e2⟩ p.normalizables hnorm kv hmem hpred
      rw [Premise.insert_normalization, hocc]
      refine ⟨rfl, ?_⟩
      rw [Premise.get_normalization, hf]
      simp [hsome]

/-- C8 witness: registering symbol `0` in the empty premise succeeds and
is afterwards visible. -/
theorem c8_first_wins_witness :
    (Premise.default.insert_normalization 0 [1] (.Literal 1)).1 = true ∧
    (Premise.default.insert_normalization 0 [1] (.Literal 1)).2.get_normalization 0 =
      some ⟨[1], .Literal 1⟩ :=
  (c8_first_wins Premise.default 0 [1] [] (.Literal 1) (.Literal 2) Reachable.base).1 rfl

/-- C7: the equalities map of every reachable premise is symmetric (`a` is
in the equivalence set of `b` iff `b` is in the equivalence set of `a`);
`new_with_equalities` builds only reachable premises; and a single
`insert(A, B)` establishes membership in both directions at once. -/
theorem c7_equalities_symmetric :
    (∀ p : Premise, Reachable p → ∀ a b : Term,
      a ∈ p.lookupEqs b ↔ b ∈ p.lookupEqs a) ∧
    (∀ l : List (Term × Term), Reachable (Premise.new_with_equalities l)) ∧
    (∀ (p : Premise) (ta tb : Term), Reachable p →
      tb ∈ (p.insert ta tb).lookupEqs ta ∧ ta ∈ (p.insert ta tb).lookupEqs tb) := by
  refine ⟨fun p hp a b => (reachable_invariant p hp).2.2 a b,
    reachable_new_with_equalities, ?_⟩
  intro p ta tb hp
  obtain ⟨hsort, -, -⟩ := reachable_invariant p hp
  constructor
  · rw [mem_lookupEqs_insert p hsort ta tb tb ta]; tauto
  · rw [mem_lookupEqs_insert p hsort ta tb ta tb]; tauto

/-- C7 witness: inserting the fact `0 ≡ 1` into the empty premise makes
each literal a member of the other's equivalence set. -/
theorem c7_equalities_symmetric_witness :
    (Term.Literal 1) ∈ (Premise.default.insert (.Literal 0) (.Literal 1)).lookupEqs (.Literal 0) ∧
    (Term.Literal 0) ∈ (Premise.default.insert (.Literal 0) (.Literal 1)).lookupEqs (.Literal 1) :=
  c7_equalities_symmetric.2.2 Premise.default (.Literal 0) (.Literal 1) Reachable.base

/-! ### The equational theory generated by a premise, and soundness (C2) -/

/-- A term is provably equal (in the theory) to every member of its
equivalence set in the premise. -/
theorem lookupEqs_fact (p : Premise) (t e : Term) (he : e ∈ p.lookupEqs t) :
    EqTh p t e := by
  rw [Premise.lookupEqs, findEqs] at he
  rcases hf : p.equalities.find? (fun kv => kv.1 == t) with _ | kv
  · rw [hf] at he; simp at he
  · rw [hf] at he
    obtain ⟨k1, vs⟩ := kv
    have hmem := List.mem_of_find?_eq_some hf
    have hpred : k1 = t := by
      have := List.find?_some hf
      simpa using this
    subst hpred
    exact EqTh.fact hmem he

/-- The per-fuel soundness bundle: whenever any function of the engine's
mutual recursion answers `true`, the corresponding terms are equal in the
theory generated by the premise. -/
theorem sound_bundle : ∀ fuel : Nat,
    (∀ p t1 t2 v r v2, dfs fuel p t1 t2 v = some (r, v2) → r = true → EqTh p t1 t2) ∧
    (∀ p t1 t2 v r v2, equals_by_unification fuel p t1 t2 v = some (r, v2) → r = true →
      EqTh p t1 t2) ∧
    (∀ p as bs v r v2, unifyArgs fuel p as bs v = some (r, v2) → r = true →
      as.length = bs.length → EqThArgs p as bs) ∧
    (∀ p t1 t2 v r v2, equals_by_normalization fuel p t1 t2 v = some (r, v2) → r = true →
      EqTh p t1 t2) ∧
    (∀ p t1 t2 v r v2, normalizationSnd fuel p t1 t2 v = some (r, v2) → r = true →
      EqTh p t1 t2) ∧
    (∀ p es t2 v r v2, dfsLoopLeft fuel p es t2 v = some (r, v2) → r = true →
      ∃ e ∈ es, EqTh p e t2) ∧
    (∀ p t1 es v r v2, dfsLoopRight fuel p t1 es v = some (r, v2) → r = true →
      ∃ e ∈ es, EqTh p t1 e) ∧
    (∀ p entries t1 t2 v r v2, (∀ kv ∈ entries, kv ∈ p.equalities) →
      premiseLoop fuel p entries t1 t2 v = some (r, v2) → r = true → EqTh p t1 t2) ∧
    (∀ p key values rest t1 t2 v r v2, (key, values) ∈ p.equalities →
      (∀ kv ∈ rest, kv ∈ p.equalities) →
      premiseStage2 fuel p key values rest t1 t2 v = some (r, v2) → r = true →
      EqTh p t1 t2) ∧
    (∀ p key values rest t1 t2 v r v2, (key, values) ∈ p.equalities →
      (∀ kv ∈ rest, kv ∈ p.equalities) →
      premiseStage3 fuel p key values rest t1 t2 v = some (r, v2) → r = true →
      EqTh p t1 t2) ∧
    (∀ p key values rest t1 t2 v r v2, (key, values) ∈ p.equalities →
      (∀ kv ∈ rest, kv ∈ p.equalities) →
      premiseStage4 fuel p key values rest t1 t2 v = some (r, v2) → r = true →
      EqTh p t1 t2) := by
  intro fuel
  induction fuel with
  | zero =>
    refine ⟨?_, ?_, ?_, ?_, ?_, ?_, ?_, ?_, ?_, ?_, ?_⟩
    · intro p t1 t2 v r v2 h _; rw [dfs] at h; exact Option.noConfusion h
    · intro p t1 t2 v r v2 h _; rw [equals_by_unification] at h; exact Option.noConfusion h
    · intro p as bs v r v2 h _ _; rw [unifyArgs] at h; exact Option.noConfusion h
    · intro p t1 t2 v r v2 h _; rw [equals_by_normalization] at h; exact Option.noConfusion h
    · intro p t1 t2 v r v2 h _; rw [normalizationSnd] at h; exact Option.noConfusion h
    · intro p es t2 v r v2 h _; rw [dfsLoopLeft] at h; exact Option.noConfusion h
    · intro p t1 es v r v2 h _; rw [dfsLoopRight] at h; exact Option.noConfusion h
    · intro p entries t1 t2 v r v2 _ h _; rw [premiseLoop] at h; exact Option.noConfusion h
    · intro p key values rest t1 t2 v r v2 _ _ h _
      rw [premiseStage2] at h; exact Option.noConfusion h
    · intro p key values rest t1 t2 v r v2 _ _ h _
      rw [premiseStage3] at h; exact Option.noConfusion h
    · intro p key values rest t1 t2 v r v2 _ _ h _
      rw [premiseStage4] at h; exact Option.noConfusion h
  | succ fuel ih =>
    obtain ⟨ihdfs, ihuni, ihargs, ihnorm, ihnorm2, ihleft, ihright, ihloop, ihs2, ihs3, ihs4⟩ := ih
    refine ⟨?_, ?_, ?_, ?_, ?_, ?_, ?_, ?_, ?_, ?_, ?_⟩
    · -- dfs
      intro p t1 t2 v r v2 h hr
      subst hr
      rw [dfs] at h
      split at h
      · next h12 => exact h12 ▸ EqTh.refl t1
      · split at h
        · simp at h
        · simp only [] at h
          split at h
          · exact Option.noConfusion h
          · next vu hu => exact ihuni p t1 t2 _ _ _ hu rfl
          · next vu hu =>
            split at h
            · exact Option.noConfusion h
            · next vn hn => exact ihnorm p t1 t2 _ _ _ hn rfl
            · next vn hn =>
              split at h
              · exact Option.noConfusion h
              · next vl hl =>
                obtain ⟨e, he, hth⟩ := ihleft p (p.lookupEqs t1) t2 _ _ _ hl rfl
                exact EqTh.trans (lookupEqs_fact p t1 e he) hth
              · next vl hl =>
                split at h
                · exact Option.noConfusion h
                · next vr2 hr2 =>
                  obtain ⟨e, he, hth⟩ := ihright p t1 (p.lookupEqs t2) _ _ _ hr2 rfl
                  exact EqTh.trans hth (EqTh.symm (lookupEqs_fact p t2 e he))
                · next vr2 hr2 =>
                  split at h
                  · exact Option.noConfusion h
                  · next vp hp =>
                    exact ihloop p p.equalities t1 t2 _ _ _ (fun kv hkv => hkv) hp rfl
                  · next vp hp => simp at h
    · -- equals_by_unification
      intro p t1 t2 v r v2 h hr
      subst hr
      cases t1 <;> cases t2 <;> simp only [equals_by_unification] at h
      all_goals first
      | simp at h
      | (split at h
         · next hcond =>
           obtain ⟨hname, hlen⟩ := hcond
           subst hname
           first
           | exact EqTh.congFun _ (ihargs p _ _ _ _ _ h rfl hlen)
           | exact EqTh.congNorm _ (ihargs p _ _ _ _ _ h rfl hlen)
         · simp at h)
    · -- unifyArgs
      intro p as bs v r v2 h hr hlen
      subst hr
      cases as with
      | nil =>
        cases bs with
        | nil => exact EqThArgs.nil
        | cons b bs => simp at hlen
      | cons a as =>
        cases bs with
        | nil => simp at hlen
        | cons b bs =>
          rw [unifyArgs] at h
          split at h
          · exact Option.noConfusion h
          · simp at h
          · next vd hd =>
            exact EqThArgs.cons (ihdfs p a b _ _ _ hd rfl)
              (ihargs p as bs _ _ _ h rfl (by simpa using hlen))
    · -- equals_by_normalization
      intro p t1 t2 v r v2 h hr
      subst hr
      cases t1 with
      | Literal x =>
        simp only [equals_by_normalization] at h
        exact ihnorm2 p _ _ _ _ _ h rfl
      | Function s args =>
        simp only [equals_by_normalization] at h
        exact ihnorm2 p _ _ _ _ _ h rfl
      | Normalizable s args =>
        rw [equals_by_normalization] at h
        split at h
        · next n hn =>
          split at h
          · exact Option.noConfusion h
          · next e he =>
            exact EqTh.trans (EqTh.expand hn he) (ihdfs p e t2 _ _ _ h rfl)
          · next he => exact ihnorm2 p _ t2 _ _ _ h rfl
        · next hn => exact ihnorm2 p _ t2 _ _ _ h rfl
    · -- normalizationSnd
      intro p t1 t2 v r v2 h hr
      subst hr
      cases t2 with
      | Literal x =>
        simp only [normalizationSnd] at h
        simp at h
      | Function s args =>
        simp only [normalizationSnd] at h
        simp at h
      | Normalizable s args =>
        rw [normalizationSnd] at h
        split at h
        · next n hn =>
          split at h
          · exact Option.noConfusion h
          · next e he =>
            exact EqTh.trans (ihdfs p t1 e _ _ _ h rfl)
              (EqTh.symm (EqTh.expand hn he))
          · next he => simp at h
        · next hn => simp at h
    · -- dfsLoopLeft
      intro p es t2 v r v2 h hr
      subst hr
      cases es with
      | nil => rw [dfsLoopLeft] at h; simp at h
      | cons e es =>
        rw [dfsLoopLeft] at h
        split at h
        · exact Option.noConfusion h
        · next vd hd =>
          exact ⟨e, by simp, ihdfs p e t2 _ _ _ hd rfl⟩
        · next vd hd =>
          obtain ⟨e2, he2, hth⟩ := ihleft p es t2 _ _ _ h rfl
          exact ⟨e2, by simp [he2], hth⟩
    · -- dfsLoopRight
      intro p t1 es v r v2 h hr
      subst hr
      cases es with
      | nil => rw [dfsLoopRight] at h; simp at h
      | cons e es =>
        rw [dfsLoopRight] at h
        split at h
        · exact Option.noConfusion h
        · next vd hd =>
          exact ⟨e, by simp, ihdfs p t1 e _ _ _ hd rfl⟩
        · next vd hd =>
          obtain ⟨e2, he2, hth⟩ := ihright p t1 es _ _ _ h rfl
          exact ⟨e2, by simp [he2], hth⟩
    · -- premiseLoop
      intro p entries t1 t2 v r v2 hsub h hr
      subst hr
      cases entries with
      | nil => rw [premiseLoop] at h; simp at h
      | cons kv rest =>
        obtain ⟨key, values⟩ := kv
        rw [premiseLoop] at h
        split at h
        · exact Option.noConfusion h
        · next vu hu =>
          split at h
          · exact Option.noConfusion h
          · next vl hl =>
            obtain ⟨e, he, hth⟩ := ihleft p values t2 _ _ _ hl rfl
            have hkey : EqTh p t1 key := ihuni p t1 key _ _ _ hu rfl
            have hfact : EqTh p key e := EqTh.fact (hsub (key, values) (by simp)) he
            exact EqTh.trans hkey (EqTh.trans hfact hth)
          · next vl hl =>
            exact ihs2 p key values rest t1 t2 _ _ _ (hsub _ (by simp))
              (fun kv2 hkv => hsub kv2 (by simp [hkv])) h rfl
        · next vu hu =>
          exact ihs2 p key values rest t1 t2 _ _ _ (hsub _ (by simp))
            (fun kv2 hkv => hsub kv2 (by simp [hkv])) h rfl
    · -- premiseStage2
      intro p key values rest t1 t2 v r v2 hkv hsub h hr
      subst hr
      rw [premiseStage2] at h
      split at h
      · exact Option.noConfusion h
      · next vu hu =>
        split at h
        · exact Option.noConfusion h
        · next vl hl =>
          obtain ⟨e, he, hth⟩ := ihright p t1 values _ _ _ hl rfl
          have hkey : EqTh p key t2 := ihuni p key t2 _ _ _ hu rfl
          have hfact : EqTh p key e := EqTh.fact hkv he
          exact EqTh.trans hth (EqTh.trans (EqTh.symm hfact) hkey)
        · next vl hl => exact ihs3 p key values rest t1 t2 _ _ _ hkv hsub h rfl
      · next vu hu => exact ihs3 p key values rest t1 t2 _ _ _ hkv hsub h rfl
    · -- premiseStage3
      intro p key values rest t1 t2 v r v2 hkv hsub h hr
      subst hr
      rw [premiseStage3] at h
      split at h
      · exact Option.noConfusion h
      · next vu hu =>
        split at h
        · exact Option.noConfusion h
        · next vl hl =>
          obtain ⟨e, he, hth⟩ := ihleft p values t2 _ _ _ hl rfl
          have hkey : EqTh p t1 key := ihnorm p t1 key _ _ _ hu rfl
          have hfact : EqTh p key e := EqTh.fact hkv he
          exact EqTh.trans hkey (EqTh.trans hfact hth)
        · next vl hl => exact ihs4 p key values rest t1 t2 _ _ _ hkv hsub h rfl
      · next vu hu => exact ihs4 p key values rest t1 t2 _ _ _ hkv hsub h rfl
    · -- premiseStage4
      intro p key values rest t1 t2 v r v2 hkv hsub h hr
      subst hr
      rw [premiseStage4] at h
      split at h
      · exact Option.noConfusion h
      · next vu hu =>
        split at h
        · exact Option.noConfusion h
        · next vl hl =>
          obtain ⟨e, he, hth⟩ := ihright p t1 values _ _ _ hl rfl
          have hkey : EqTh p key t2 := ihnorm p key t2 _ _ _ hu rfl
          have hfact : EqTh p key e := EqTh.fact hkv he
          exact EqTh.trans hth (EqTh.trans (EqTh.symm hfact) hkey)
        · next vl hl => exact ihloop p rest t1 t2 _ _ _ hsub h rfl
      · next vu hu => exact ihloop p rest t1 t2 _ _ _ hsub h rfl

/-- C2: soundness of the engine. Whenever `equals` answers `true` (at any
fuel), the two terms are equal in the equality theory generated by the
premise; a `true` verdict is never wrong. -/
theorem c2_soundness : ∀ (fuel : Nat) (t1 t2 : Term) (p : Premise),
    equals fuel t1 t2 p = some true → EqTh p t1 t2 := by
  intro fuel t1 t2 p h
  rw [equals] at h
  rcases hd : dfs fuel p t1 t2 [] with _ | rv
  · rw [hd] at h; simp at h
  · rw [hd] at h
    simp only [Option.map_some', Option.some.injEq] at h
    exact (sound_bundle fuel).1 p t1 t2 [] rv.1 rv.2 (by rw [hd]) h

/-- C2 witness: a reflexive query on the empty premise answers `true`, and
soundness turns that into a derivation in the theory. -/
theorem c2_soundness_witness : EqTh Premise.default (.Literal 0) (.Literal 0) :=
  c2_soundness 1 (.Literal 0) (.Literal 0) Premise.default rfl

/-! ### Preservation of the in-progress set, and the marking policy (C4) -/

theorem mem_removePair (q : Term × Term) (t1 t2 : Term) (v : Visited) :
    q ∈ removePair t1 t2 v ↔ q ∈ v ∧ q ≠ (t1, t2) := by
  rw [removePair, List.mem_filter]
  simp

/-- The per-fuel preservation bundle: no function of the engine ever
removes a pair that was already present in the visited set at its entry
(`dfs` removes only the pair it inserted itself). -/
theorem preserve_bundle : ∀ fuel : Nat,
    (∀ p t1 t2 v r v2, dfs fuel p t1 t2 v = some (r, v2) → ∀ q ∈ v, q ∈ v2) ∧
    (∀ p t1 t2 v r v2, equals_by_unification fuel p t1 t2 v = some (r, v2) →
      ∀ q ∈ v, q ∈ v2) ∧
    (∀ p as bs v r v2, unifyArgs fuel p as bs v = some (r, v2) → ∀ q ∈ v, q ∈ v2) ∧
    (∀ p t1 t2 v r v2, equals_by_normalization fuel p t1 t2 v = some (r, v2) →
      ∀ q ∈ v, q ∈ v2) ∧
    (∀ p t1 t2 v r v2, normalizationSnd fuel p t1 t2 v = some (r, v2) →
      ∀ q ∈ v, q ∈ v2) ∧
    (∀ p es t2 v r v2, dfsLoopLeft fuel p es t2 v = some (r, v2) → ∀ q ∈ v, q ∈ v2) ∧
    (∀ p t1 es v r v2, dfsLoopRight fuel p t1 es v = some (r, v2) → ∀ q ∈ v, q ∈ v2) ∧
    (∀ p entries t1 t2 v r v2, premiseLoop fuel p entries t1 t2 v = some (r, v2) →
      ∀ q ∈ v, q ∈ v2) ∧
    (∀ p key values rest t1 t2 v r v2,
      premiseStage2 fuel p key values rest t1 t2 v = some (r, v2) → ∀ q ∈ v, q ∈ v2) ∧
    (∀ p key values rest t1 t2 v r v2,
      premiseStage3 fuel p key values rest t1 t2 v = some (r, v2) → ∀ q ∈ v, q ∈ v2) ∧
    (∀ p key values rest t1 t2 v r v2,
      premiseStage4 fuel p key values rest t1 t2 v = some (r, v2) → ∀ q ∈ v, q ∈ v2) := by
  intro fuel
  induction fuel with
  | zero =>
    refine ⟨?_, ?_, ?_, ?_, ?_, ?_, ?_, ?_, ?_, ?_, ?_⟩
    · intro p t1 t2 v r v2 h; rw [dfs] at h; exact Option.noConfusion h
    · intro p t1 t2 v r v2 h; rw [equals_by_unification] at h; exact Option.noConfusion h
    · intro p as bs v r v2 h; rw [unifyArgs] at h; exact Option.noConfusion h
    · intro p t1 t2 v r v2 h; rw [equals_by_normalization] at h; exact Option.noConfusion h
    · intro p t1 t2 v r v2 h; rw [normalizationSnd] at h; exact Option.noConfusion h
    · intro p es t2 v r v2 h; rw [dfsLoopLeft] at h; exact Option.noConfusion h
    · intro p t1 es v r v2 h; rw [dfsLoopRight] at h; exact Option.noConfusion h
    · intro p entries t1 t2 v r v2 h; rw [premiseLoop] at h; exact Option.noConfusion h
    · intro p key values rest t1 t2 v r v2 h
      rw [premiseStage2] at h; exact Option.noConfusion h
    · intro p key values rest t1 t2 v r v2 h
      rw [premiseStage3] at h; exact Option.noConfusion h
    · intro p key values rest t1 t2 v r v2 h
      rw [premiseStage4] at h; exact Option.noConfusion h
  | succ fuel ih =>
    obtain ⟨ihdfs, ihuni, ihargs, ihnorm, ihnorm2, ihleft, ihright, ihloop, ihs2, ihs3, ihs4⟩ := ih
    refine ⟨?_, ?_, ?_, ?_, ?_, ?_, ?_, ?_, ?_, ?_, ?_⟩
    · -- dfs
      intro p t1 t2 v r v2 h q hq
      rw [dfs] at h
      split at h
      · next h12 =>
        simp only [Option.some.injEq, Prod.mk.injEq] at h
        exact h.2 ▸ hq
      · split at h
        · next hv =>
          simp only [Option.some.injEq, Prod.mk.injEq] at h
          exact h.2 ▸ hq
        · next hv =>
          simp only [] at h
          have hq1 : q ∈ (t1, t2) :: v := by simp [hq]
          have hqne : q ≠ (t1, t2) := fun he => hv (he ▸ hq)
          split at h
          · exact Option.noConfusion h
          · next vu hu =>
            have hq2 := ihuni p t1 t2 _ _ _ hu q hq1
            simp only [Option.some.injEq, Prod.mk.injEq] at h
            rw [← h.2, mem_removePair]
            exact ⟨hq2, hqne⟩
          · next vu hu =>
            have hq2 := ihuni p t1 t2 _ _ _ hu q hq1
            split at h
            · exact Option.noConfusion h
            · next vn hn =>
              have hq3 := ihnorm p t1 t2 _ _ _ hn q hq2
              simp only [Option.some.injEq, Prod.mk.injEq] at h
              rw [← h.2, mem_removePair]
              exact ⟨hq3, hqne⟩
            · next vn hn =>
              have hq3 := ihnorm p t1 t2 _ _ _ hn q hq2
              split at h
              · exact Option.noConfusion h
              · next vl hl =>
                have hq4 := ihleft p _ t2 _ _ _ hl q hq3
                simp only [Option.some.injEq, Prod.mk.injEq] at h
                rw [← h.2, mem_removePair]
                exact ⟨hq4, hqne⟩
              · next vl hl =>
                have hq4 := ihleft p _ t2 _ _ _ hl q hq3
                split at h
                · exact Option.noConfusion h
                · next vr2 hr2 =>
                  have hq5 := ihright p t1 _ _ _ _ hr2 q hq4
                  simp only [Option.some.injEq, Prod.mk.injEq] at h
                  rw [← h.2, mem_removePair]
                  exact ⟨hq5, hqne⟩
                · next vr2 hr2 =>
                  have hq5 := ihright p t1 _ _ _ _ hr2 q hq4
                  split at h
                  · exact Option.noConfusion h
                  · next vp hp =>
                    have hq6 := ihloop p _ t1 t2 _ _ _ hp q hq5
                    simp only [Option.some.injEq, Prod.mk.injEq] at h
                    rw [← h.2, mem_removePair]
                    exact ⟨hq6, hqne⟩
                  · next vp hp =>
                    have hq6 := ihloop p _ t1 t2 _ _ _ hp q hq5
                    simp only [Option.some.injEq, Prod.mk.injEq] at h
                    exact h.2 ▸ hq6
    · -- equals_by_unification
      intro p t1 t2 v r v2 h q hq
      cases t1 <;> cases t2 <;> simp only [equals_by_unification] at h
      all_goals first
      | (simp only [Option.some.injEq, Prod.mk.injEq] at h
         exact h.2 ▸ hq)
      | (split at h
         · exact ihargs p _ _ _ _ _ h q hq
         · simp only [Option.some.injEq, Prod.mk.injEq] at h
           exact h.2 ▸ hq)
    · -- unifyArgs
      intro p as bs v r v2 h q hq
      cases as with
      | nil =>
        rw [unifyArgs] at h
        simp only [Option.some.injEq, Prod.mk.injEq] at h
        exact h.2 ▸ hq
      | cons a as =>
        cases bs with
        | nil =>
          rw [unifyArgs] at h
          simp only [Option.some.injEq, Prod.mk.injEq] at h
          exact h.2 ▸ hq
        | cons b bs =>
          rw [unifyArgs] at h
          split at h
          · exact Option.noConfusion h
          · next vd hd =>
            have hq2 := ihdfs p a b _ _ _ hd q hq
            simp only [Option.some.injEq, Prod.mk.injEq] at h
            exact h.2 ▸ hq2
          · next vd hd =>
            have hq2 := ihdfs p a b _ _ _ hd q hq
            exact ihargs p as bs _ _ _ h q hq2
    · -- equals_by_normalization
      intro p t1 t2 v r v2 h q hq
      cases t1 with
      | Literal x =>
        simp only [equals_by_normalization] at h
        exact ihnorm2 p _ _ _ _ _ h q hq
      | Function s args =>
        simp only [equals_by_normalization] at h
        exact ihnorm2 p _ _ _ _ _ h q hq
      | Normalizable s args =>
        rw [equals_by_normalization] at h
        split at h
        · next n hn =>
          split at h
          · exact Option.noConfusion h
          · next e he => exact ihdfs p e t2 _ _ _ h q hq
          · next he => exact ihnorm2 p _ t2 _ _ _ h q hq
        · next hn => exact ihnorm2 p _ t2 _ _ _ h q hq
    · -- normalizationSnd
      intro p t1 t2 v r v2 h q hq
      cases t2 with
      | Literal x =>
        simp only [normalizationSnd] at h
        simp only [Option.some.injEq, Prod.mk.injEq] at h
        exact h.2 ▸ hq
      | Function s args =>
        simp only [normalizationSnd] at h
        simp only [Option.some.injEq, Prod.mk.injEq] at h
        exact h.2 ▸ hq
      | Normalizable s args =>
        rw [normalizationSnd] at h
        split at h
        · next n hn =>
          split at h
          · exact Option.noConfusion h
          · next e he => exact ihdfs p t1 e _ _ _ h q hq
          · next he =>
            simp only [Option.some.injEq, Prod.mk.injEq] at h
            exact h.2 ▸ hq
        · next hn =>
          simp only [Option.some.injEq, Prod.mk.injEq] at h
          exact h.2 ▸ hq
    · -- dfsLoopLeft
      intro p es t2 v r v2 h q hq
      cases es with
      | nil =>
        rw [dfsLoopLeft] at h
        simp only [Option.some.injEq, Prod.mk.injEq] at h
        exact h.2 ▸ hq
      | cons e es =>
        rw [dfsLoopLeft] at h
        split at h
        · exact Option.noConfusion h
        · next vd hd =>
          have hq2 := ihdfs p e t2 _ _ _ hd q hq
          simp only [Option.some.injEq, Prod.mk.injEq] at h
          exact h.2 ▸ hq2
        · next vd hd =>
          have hq2 := ihdfs p e t2 _ _ _ hd q hq
          exact ihleft p es t2 _ _ _ h q hq2
    · -- dfsLoopRight
      intro p t1 es v r v2 h q hq
      cases es with
      | nil =>
        rw [dfsLoopRight] at h
        simp only [Option.some.injEq, Prod.mk.injEq] at h
        exact h.2 ▸ hq
      | cons e es =>
        rw [dfsLoopRight] at h
        split at h
        · exact Option.noConfusion h
        · next vd hd =>
          have hq2 := ihdfs p t1 e _ _ _ hd q hq
          simp only [Option.some.injEq, Prod.mk.injEq] at h
          exact h.2 ▸ hq2
        · next vd hd =>
          have hq2 := ihdfs p t1 e _ _ _ hd q hq
          exact ihright p t1 es _ _ _ h q hq2
    · -- premiseLoop
      intro p entries t1 t2 v r v2 h q hq
      cases entries with
      | nil =>
        rw [premiseLoop] at h
        simp only [Option.some.injEq, Prod.mk.injEq] at h
        exact h.2 ▸ hq
      | cons kv rest =>
        obtain ⟨key, values⟩ := kv
        rw [premiseLoop] at h
        split at h
        · exact Option.noConfusion h
        · next vu hu =>
          have hq2 := ihuni p t1 key _ _ _ hu q hq
          split at h
          · exact Option.noConfusion h
          · next vl hl =>
            have hq3 := ihleft p values t2 _ _ _ hl q hq2
            simp only [Option.some.injEq, Prod.mk.injEq] at h
            exact h.2 ▸ hq3
          · next vl hl =>
            have hq3 := ihleft p values t2 _ _ _ hl q hq2
            exact ihs2 p key values rest t1 t2 _ _ _ h q hq3
        · next vu hu =>
          have hq2 := ihuni p t1 key _ _ _ hu q hq
          exact ihs2 p key values rest t1 t2 _ _ _ h q hq2
    · -- premiseStage2
      intro p key values rest t1 t2 v r v2 h q hq
      rw [premiseStage2] at h
      split at h
      · exact Option.noConfusion h
      · next vu hu =>
        have hq2 := ihuni p key t2 _ _ _ hu q hq
        split at h
        · exact Option.noConfusion h
        · next vl hl =>
          have hq3 := ihright p t1 values _ _ _ hl q hq2
          simp only [Option.some.injEq, Prod.mk.injEq] at h
          exact h.2 ▸ hq3
        · next vl hl =>
          have hq3 := ihright p t1 values _ _ _ hl q hq2
          exact ihs3 p key values rest t1 t2 _ _ _ h q hq3
      · next vu hu =>
        have hq2 := ihuni p key t2 _ _ _ hu q hq
        exact ihs3 p key values rest t1 t2 _ _ _ h q hq2
    · -- premiseStage3
      intro p key values rest t1 t2 v r v2 h q hq
      rw [premiseStage3] at h
      split at h
      · exact Option.noConfusion h
      · next vu hu =>
        have hq2 := ihnorm p t1 key _ _ _ hu q hq
        split at h
        · exact Option.noConfusion h
        · next vl hl =>
          have hq3 := ihleft p values t2 _ _ _ hl q hq2
          simp only [Option.some.injEq, Prod.mk.injEq] at h
          exact h.2 ▸ hq3
        · next vl hl =>
          have hq3 := ihleft p values t2 _ _ _ hl q hq2
          exact ihs4 p key values rest t1 t2 _ _ _ h q hq3
      · next vu hu =>
        have hq2 := ihnorm p t1 key _ _ _ hu q hq
        exact ihs4 p key values rest t1 t2 _ _ _ h q hq2
    · -- premiseStage4
      intro p key values rest t1 t2 v r v2 h q hq
      rw [premiseStage4] at h
      split at h
      · exact Option.noConfusion h
      · next vu hu =>
        have hq2 := ihnorm p key t2 _ _ _ hu q hq
        split at h
        · exact Option.noConfusion h
        · next vl hl =>
          have hq3 := ihright p t1 values _ _ _ hl q hq2
          simp only [Option.some.injEq, Prod.mk.injEq] at h
          exact h.2 ▸ hq3
        · next vl hl =>
          have hq3 := ihright p t1 values _ _ _ hl q hq2
          exact ihloop p rest t1 t2 _ _ _ h q hq3
      · next vu hu =>
        have hq2 := ihnorm p key t2 _ _ _ hu q hq
        exact ihloop p rest t1 t2 _ _ _ h q hq2

/-- C4: the asymmetric maintenance of the in-progress pair set. For a pair
of distinct terms, a `dfs` call that answers `true` leaves the visited set
without the ordered pair `(term1, term2)` (success unmarks it), while a
call that answers `false` leaves the pair in the visited set (failure does
not unmark, so the pair is never retried inside the same top-level
call). -/
theorem c4_visited_marking : ∀ (fuel : Nat) (p : Premise) (t1 t2 : Term)
    (v : Visited) (r : Bool) (v2 : Visited), t1 ≠ t2 →
    dfs fuel p t1 t2 v = some (r, v2) →
    (r = true → (t1, t2) ∉ v2) ∧ (r = false → (t1, t2) ∈ v2) := by
  intro fuel p t1 t2 v r v2 hne h
  cases fuel with
  | zero => rw [dfs] at h; exact Option.noConfusion h
  | succ fuel =>
    rw [dfs] at h
    split at h
    · next h12 => exact absurd h12 hne
    · split at h
      · next hv =>
        simp only [Option.some.injEq, Prod.mk.injEq] at h
        constructor
        · intro hr
          rw [← h.1] at hr
          exact absurd hr (by simp)
        · intro _
          exact h.2 ▸ hv
      · next hv =>
        simp only [] at h
        have hmem : (t1, t2) ∈ (t1, t2) :: v := by simp
        split at h
        · exact Option.noConfusion h
        · next vu hu =>
          simp only [Option.some.injEq, Prod.mk.injEq] at h
          refine ⟨fun _ => ?_, fun hr => ?_⟩
          · rw [← h.2]
            simp [mem_removePair]
          · rw [← h.1] at hr
            exact absurd hr (by simp)
        · next vu hu =>
          have hm2 := (preserve_bundle fuel).2.1 p t1 t2 _ _ _ hu _ hmem
          split at h
          · exact Option.noConfusion h
          · next vn hn =>
            simp only [Option.some.injEq, Prod.mk.injEq] at h
            refine ⟨fun _ => ?_, fun hr => ?_⟩
            · rw [← h.2]
              simp [mem_removePair]
            · rw [← h.1] at hr
              exact absurd hr (by simp)
          · next vn hn =>
            have hm3 := (preserve_bundle fuel).2.2.2.1 p t1 t2 _ _ _ hn _ hm2
            split at h
            · exact Option.noConfusion h
            · next vl hl =>
              simp only [Option.some.injEq, Prod.mk.injEq] at h
              refine ⟨fun _ => ?_, fun hr => ?_⟩
              · rw [← h.2]
                simp [mem_removePair]
              · rw [← h.1] at hr
                exact absurd hr (by simp)
            · next vl hl =>
              have hm4 := (preserve_bundle fuel).2.2.2.2.2.1 p _ t2 _ _ _ hl _ hm3
              split at h
              · exact Option.noConfusion h
              · next vr2 hr2 =>
                simp only [Option.some.injEq, Prod.mk.injEq] at h
                refine ⟨fun _ => ?_, fun hr => ?_⟩
                · rw [← h.2]
                  simp [mem_removePair]
                · rw [← h.1] at hr
                  exact absurd hr (by simp)
              · next vr2 hr2 =>
                have hm5 := (preserve_bundle fuel).2.2.2.2.2.2.1 p t1 _ _ _ _ hr2 _ hm4
                split at h
                · exact Option.noConfusion h
                · next vp hp =>
                  simp only [Option.some.injEq, Prod.mk.injEq] at h
                  refine ⟨fun _ => ?_, fun hr => ?_⟩
                  · rw [← h.2]
                    simp [mem_removePair]
                  · rw [← h.1] at hr
                    exact absurd hr (by simp)
                · next vp hp =>
                  have hm6 := (preserve_bundle fuel).2.2.2.2.2.2.2.1 p _ t1 t2 _ _ _ hp _ hm5
                  simp only [Option.some.injEq, Prod.mk.injEq] at h
                  refine ⟨fun hr => ?_, fun _ => h.2 ▸ hm6⟩
                  rw [← h.1] at hr
                  exact absurd hr (by simp)

/-- C4 witness: an unprovable pair of distinct literals is left marked in
the visited set by the failed call. -/
theorem c4_visited_marking_witness :
    (false = true →
      ((Term.Literal 0 : Term), (Term.Literal 1 : Term)) ∉
        ([((Term.Literal 0 : Term), (Term.Literal 1 : Term))] : Visited)) ∧
    (false = false →
      ((Term.Literal 0 : Term), (Term.Literal 1 : Term)) ∈
        ([((Term.Literal 0 : Term), (Term.Literal 1 : Term))] : Visited)) :=
  c4_visited_marking 5 Premise.default (.Literal 0) (.Literal 1) []
    false [((.Literal 0 : Term), (.Literal 1 : Term))] (by decide) (by decide)

/-! ### The empty premise degenerates to structural equality (C10) -/

theorem Term.size_pos (t : Term) : 1 ≤ t.size := by
  cases t <;> simp [Term.size]

theorem normalizationSnd_empty (fuel : Nat) (t1 t2 : Term) (v : Visited)
    (hf : 1 ≤ fuel) :
    normalizationSnd fuel Premise.default t1 t2 v = some (false, v) := by
  cases fuel with
  | zero => omega
  | succ f =>
    cases t2 <;> simp [normalizationSnd, Premise.get_normalization, Premise.default]

theorem ebn_empty (fuel : Nat) (t1 t2 : Term) (v : Visited) (hf : 2 ≤ fuel) :
    equals_by_normalization fuel Premise.default t1 t2 v = some (false, v) := by
  cases fuel with
  | zero => omega
  | succ f =>
    have hs : ∀ t1a : Term, normalizationSnd f Premise.default t1a t2 v = some (false, v) :=
      fun t1a => normalizationSnd_empty f t1a t2 v (by omega)
    cases t1 with
    | Literal x =>
      simp only [equals_by_normalization]
      exact hs _
    | Function s args =>
      simp only [equals_by_normalization]
      exact hs _
    | Normalizable s args =>
      rw [equals_by_normalization]
      have hgn : Premise.default.get_normalization s = none := rfl
      rw [hgn]
      exact hs _

theorem lookupEqs_empty (t : Term) : Premise.default.lookupEqs t = [] := rfl

theorem dfsLoopLeft_nil (fuel : Nat) (p : Premise) (t2 : Term) (v : Visited)
    (hf : 1 ≤ fuel) : dfsLoopLeft fuel p [] t2 v = some (false, v) := by
  cases fuel with
  | zero => omega
  | succ f => rw [dfsLoopLeft]

theorem dfsLoopRight_nil (fuel : Nat) (p : Premise) (t1 : Term) (v : Visited)
    (hf : 1 ≤ fuel) : dfsLoopRight fuel p t1 [] v = some (false, v) := by
  cases fuel with
  | zero => omega
  | succ f => rw [dfsLoopRight]

theorem premiseLoop_nil (fuel : Nat) (p : Premise) (t1 t2 : Term) (v : Visited)
    (hf : 1 ≤ fuel) : premiseLoop fuel p [] t1 t2 v = some (false, v) := by
  cases fuel with
  | zero => omega
  | succ f => rw [premiseLoop]

/-- On the empty premise the engine computes structural equality: `dfs`
returns `decide (t1 = t2)`, `equals_by_unification` always fails on
distinct terms, and `unifyArgs` computes structural equality of the two
argument vectors. -/
theorem empty_bundle : ∀ fuel : Nat,
    (∀ t1 t2 v, 4 * t1.size < fuel →
      ∃ v2, dfs fuel Premise.default t1 t2 v = some (decide (t1 = t2), v2)) ∧
    (∀ t1 t2 v, 4 * t1.size ≤ fuel → t1 ≠ t2 →
      ∃ v2, equals_by_unification fuel Premise.default t1 t2 v = some (false, v2)) ∧
    (∀ as bs v, 4 * Term.sizeList as + 2 ≤ fuel → as.length = bs.length →
      ∃ v2, unifyArgs fuel Premise.default as bs v = some (decide (as = bs), v2)) := by
  intro fuel
  induction fuel using Nat.strong_induction_on with
  | _ fuel ih =>
    refine ⟨?_, ?_, ?_⟩
    · intro t1 t2 v hfuel
      have hs := Term.size_pos t1
      cases fuel with
      | zero => omega
      | succ f =>
        rw [dfs]
        by_cases h12 : t1 = t2
        · rw [if_pos h12]
          exact ⟨v, by simp [h12]⟩
        · rw [if_neg h12]
          by_cases hv : (t1, t2) ∈ v
          · rw [if_pos hv]
            exact ⟨v, by simp [h12]⟩
          · rw [if_neg hv]
            obtain ⟨v2, hv2⟩ := (ih f (by omega)).2.1 t1 t2 ((t1, t2) :: v) (by omega) h12
            refine ⟨v2, ?_⟩
            simp only [hv2, ebn_empty f t1 t2 v2 (by omega), lookupEqs_empty,
              dfsLoopLeft_nil f Premise.default t2 v2 (by omega),
              dfsLoopRight_nil f Premise.default t1 v2 (by omega)]
            have hpl : premiseLoop f Premise.default Premise.default.equalities t1 t2 v2 =
                some (false, v2) := premiseLoop_nil f Premise.default t1 t2 v2 (by omega)
            simp only [hpl, h12]
            simp [h12]
    · intro t1 t2 v hfuel hne
      have hs := Term.size_pos t1
      cases fuel with
      | zero => omega
      | succ f =>
        cases t1 with
        | Literal x => exact ⟨v, by cases t2 <;> simp [equals_by_unification]⟩
        | Function s as =>
          cases t2 with
          | Literal y => exact ⟨v, by simp [equals_by_unification]⟩
          | Normalizable s2 bs => exact ⟨v, by simp [equals_by_unification]⟩
          | Function s2 bs =>
            rw [equals_by_unification]
            by_cases hcond : s = s2 ∧ as.length = bs.length
            · rw [if_pos hcond]
              have hsz : Term.size (.Function s as) = 1 + Term.sizeList as := rfl
              obtain ⟨v2, hv2⟩ := (ih f (by omega)).2.2 as bs v (by omega) hcond.2
              refine ⟨v2, ?_⟩
              rw [hv2]
              have hab : as ≠ bs := fun h => hne (by rw [hcond.1, h])
              simp [hab]
            · rw [if_neg hcond]; exact ⟨v, rfl⟩
        | Normalizable s as =>
          cases t2 with
          | Literal y => exact ⟨v, by simp [equals_by_unification]⟩
          | Function s2 bs => exact ⟨v, by simp [equals_by_unification]⟩
          | Normalizable s2 bs =>
            rw [equals_by_unification]
            by_cases hcond : s = s2 ∧ as.length = bs.length
            · rw [if_pos hcond]
              have hsz : Term.size (.Normalizable s as) = 1 + Term.sizeList as := rfl
              obtain ⟨v2, hv2⟩ := (ih f (by omega)).2.2 as bs v (by omega) hcond.2
              refine ⟨v2, ?_⟩
              rw [hv2]
              have hab : as ≠ bs := fun h => hne (by rw [hcond.1, h])
              simp [hab]
            · rw [if_neg hcond]; exact ⟨v, rfl⟩
    · intro as bs v hfuel hlen
      cases fuel with
      | zero => omega
      | succ f =>
        cases as with
        | nil =>
          cases bs with
          | nil => exact ⟨v, by rw [unifyArgs]; simp⟩
          | cons b bs => simp at hlen
        | cons a as =>
          cases bs with
          | nil => simp at hlen
          | cons b bs =>
            rw [unifyArgs]
            have hszl : Term.sizeList (a :: as) = a.size + Term.sizeList as := rfl
            have hsa := Term.size_pos a
            obtain ⟨vd, hd⟩ := (ih f (by omega)).1 a b v (by omega)
            rw [hd]
            by_cases hab : a = b
            · rw [decide_eq_true hab]
              obtain ⟨v2, hv2⟩ :=
                (ih f (by omega)).2.2 as bs vd (by omega) (by simpa using hlen)
              refine ⟨v2, ?_⟩
              have hdd : decide ((a :: as) = (b :: bs)) = decide (as = bs) :=
                decide_eq_decide.mpr (by simp [hab])
              rw [hdd]
              exact hv2
            · rw [decide_eq_false hab]
              refine ⟨vd, ?_⟩
              have hdd : decide ((a :: as) = (b :: bs)) = false :=
                decide_eq_false (by simp [hab])
              rw [hdd]

/-- C10: against the empty premise the engine is exactly structural
equality — for sufficient fuel, `equals(t1, t2, empty)` terminates with
`true` iff `t1` deep-equals `t2`. -/
theorem c10_empty_premise : ∀ (t1 t2 : Term) (fuel : Nat), 4 * t1.size < fuel →
    equals fuel t1 t2 Premise.default = some (decide (t1 = t2)) := by
  intro t1 t2 fuel h
  obtain ⟨v2, hv2⟩ := (empty_bundle fuel).1 t1 t2 [] h
  rw [equals, hv2]
  rfl

/-- C10 witness: two distinct literals are (terminally) rejected and a
literal is accepted against itself, both at fuel 9. -/
theorem c10_empty_premise_witness :
    equals 9 (.Literal 0) (.Literal 1) Premise.default =
      some (decide ((Term.Literal 0 : Term) = (Term.Literal 1 : Term))) :=
  c10_empty_premise (.Literal 0) (.Literal 1) 9 (by decide)

/-! ### A diverging input (C1), the asymmetric verdict (C5), and the cyclic regression test (C6) -/

/-! ### Fuel monotonicity: a finished computation is stable under more fuel -/

theorem apply_mono_bundle : ∀ fuel : Nat,
    (∀ t fr toT r, Term.apply fuel t fr toT = some r →
      Term.apply (fuel+1) t fr toT = some r) ∧
    (∀ as fr toT rs, Term.applyList fuel as fr toT = some rs →
      Term.applyList (fuel+1) as fr toT = some rs) := by
  intro fuel
  induction fuel with
  | zero =>
    constructor
    · intro t fr toT r h; rw [Term.apply] at h; exact Option.noConfusion h
    · intro as fr toT rs h; rw [Term.applyList] at h; exact Option.noConfusion h
  | succ f ih =>
    constructor
    · intro t fr toT r h
      rw [Term.apply] at h ⊢
      split at h
      · next l heq =>
        exact h
      · next s args heq =>
        rcases hal : Term.applyList f args fr toT with _ | as2
        · rw [hal] at h; simp at h
        · rw [hal] at h
          rw [ih.2 args fr toT as2 hal]
          exact h
      · next s args heq =>
        rcases hal : Term.applyList f args fr toT with _ | as2
        · rw [hal] at h; simp at h
        · rw [hal] at h
          rw [ih.2 args fr toT as2 hal]
          exact h
    · intro as fr toT rs h
      cases as with
      | nil => rw [Term.applyList] at h ⊢; exact h
      | cons a as2 =>
        rw [Term.applyList] at h ⊢
        split at h
        · exact Option.noConfusion h
        · next a2 ha =>
          rw [ih.1 a fr toT a2 ha]
          split at h
          · exact Option.noConfusion h
          · next as3 has =>
            rw [ih.2 as2 fr toT as3 has]
            exact h

theorem applyFold_mono : ∀ (l : List (Nat × Term)) (fuel : Nat) (e r : Term),
    applyFold fuel e l = some r → applyFold (fuel+1) e l = some r := by
  intro l
  induction l with
  | nil => intro fuel e r h; rw [applyFold] at h ⊢; exact h
  | cons pa rest ih =>
    intro fuel e r h
    obtain ⟨p, a⟩ := pa
    rw [applyFold] at h ⊢
    split at h
    · exact Option.noConfusion h
    · next e2 ha =>
      rw [(apply_mono_bundle fuel).1 e _ a e2 ha]
      exact ih fuel e2 r h

theorem equivalenceF_mono (fuel : Nat) (n : Normalization) (args : List Term)
    (o : Option Term) (h : Normalization.equivalenceF fuel n args = some o) :
    Normalization.equivalenceF (fuel+1) n args = some o := by
  rw [Normalization.equivalenceF] at h ⊢
  by_cases hl : n.parameters.length = args.length
  · rw [if_pos hl] at h ⊢
    split at h
    · exact Option.noConfusion h
    · next e ha =>
      rw [applyFold_mono _ fuel _ e ha]
      exact h
  · rw [if_neg hl] at h ⊢
    exact h

/-- The per-fuel monotonicity bundle: once any function of the engine
finishes within some fuel, one more unit of fuel yields the identical
answer and visited set. -/
theorem mono_bundle : ∀ fuel : Nat,
    (∀ p t1 t2 v out, dfs fuel p t1 t2 v = some out →
      dfs (fuel+1) p t1 t2 v = some out) ∧
    (∀ p t1 t2 v out, equals_by_unification fuel p t1 t2 v = some out →
      equals_by_unification (fuel+1) p t1 t2 v = some out) ∧
    (∀ p as bs v out, unifyArgs fuel p as bs v = some out →
      unifyArgs (fuel+1) p as bs v = some out) ∧
    (∀ p t1 t2 v out, equals_by_normalization fuel p t1 t2 v = some out →
      equals_by_normalization (fuel+1) p t1 t2 v = some out) ∧
    (∀ p t1 t2 v out, normalizationSnd fuel p t1 t2 v = some out →
      normalizationSnd (fuel+1) p t1 t2 v = some out) ∧
    (∀ p es t2 v out, dfsLoopLeft fuel p es t2 v = some out →
      dfsLoopLeft (fuel+1) p es t2 v = some out) ∧
    (∀ p t1 es v out, dfsLoopRight fuel p t1 es v = some out →
      dfsLoopRight (fuel+1) p t1 es v = some out) ∧
    (∀ p entries t1 t2 v out, premiseLoop fuel p entries t1 t2 v = some out →
      premiseLoop (fuel+1) p entries t1 t2 v = some out) ∧
    (∀ p key values rest t1 t2 v out,
      premiseStage2 fuel p key values rest t1 t2 v = some out →
      premiseStage2 (fuel+1) p key values rest t1 t2 v = some out) ∧
    (∀ p key values rest t1 t2 v out,
      premiseStage3 fuel p key values rest t1 t2 v = some out →
      premiseStage3 (fuel+1) p key values rest t1 t2 v = some out) ∧
    (∀ p key values rest t1 t2 v out,
      premiseStage4 fuel p key values rest t1 t2 v = some out →
      premiseStage4 (fuel+1) p key values rest t1 t2 v = some out) := by
  intro fuel
  induction fuel with
  | zero =>
    refine ⟨?_, ?_, ?_, ?_, ?_, ?_, ?_, ?_, ?_, ?_, ?_⟩
    · intro p t1 t2 v out h; rw [dfs] at h; exact Option.noConfusion h
    · intro p t1 t2 v out h; rw [equals_by_unification] at h; exact Option.noConfusion h
    · intro p as bs v out h; rw [unifyArgs] at h; exact Option.noConfusion h
    · intro p t1 t2 v out h; rw [equals_by_normalization] at h; exact Option.noConfusion h
    · intro p t1 t2 v out h; rw [normalizationSnd] at h; exact Option.noConfusion h
    · intro p es t2 v out h; rw [dfsLoopLeft] at h; exact Option.noConfusion h
    · intro p t1 es v out h; rw [dfsLoopRight] at h; exact Option.noConfusion h
    · intro p entries t1 t2 v out h; rw [premiseLoop] at h; exact Option.noConfusion h
    · intro p key values rest t1 t2 v out h
      rw [premiseStage2] at h; exact Option.noConfusion h
    · intro p key values rest t1 t2 v out h
      rw [premiseStage3] at h; exact Option.noConfusion h
    · intro p key values rest t1 t2 v out h
      rw [premiseStage4] at h; exact Option.noConfusion h
  | succ f ih =>
    obtain ⟨ihdfs, ihuni, ihargs, ihnorm, ihnorm2, ihleft, ihright, ihloop, ihs2, ihs3, ihs4⟩ := ih
    refine ⟨?_, ?_, ?_, ?_, ?_, ?_, ?_, ?_, ?_, ?_, ?_⟩
    · -- dfs
      intro p t1 t2 v out h
      rw [dfs] at h ⊢
      split at h
      · next h12 => rw [if_pos h12]; exact h
      · next h12 =>
        rw [if_neg h12]
        split at h
        · next hv => rw [if_pos hv]; exact h
        · next hv =>
          rw [if_neg hv]
          simp only [] at h ⊢
          split at h
          · exact Option.noConfusion h
          · next vu hu =>
            rw [ihuni p t1 t2 _ _ hu]
            exact h
          · next vu hu =>
            rw [ihuni p t1 t2 _ _ hu]
            split at h
            · exact Option.noConfusion h
            · next vn hn =>
              rw [ihnorm p t1 t2 _ _ hn]
              exact h
            · next vn hn =>
              rw [ihnorm p t1 t2 _ _ hn]
              split at h
              · exact Option.noConfusion h
              · next vl hl =>
                rw [ihleft p _ t2 _ _ hl]
                exact h
              · next vl hl =>
                rw [ihleft p _ t2 _ _ hl]
                split at h
                · exact Option.noConfusion h
                · next vr2 hr2 =>
                  rw [ihright p t1 _ _ _ hr2]
                  exact h
                · next vr2 hr2 =>
                  rw [ihright p t1 _ _ _ hr2]
                  split at h
                  · exact Option.noConfusion h
                  · next vp hp =>
                    rw [ihloop p _ t1 t2 _ _ hp]
                    exact h
                  · next vp hp =>
                    rw [ihloop p _ t1 t2 _ _ hp]
                    exact h
    · -- equals_by_unification
      intro p t1 t2 v out h
      cases t1 <;> cases t2 <;> simp only [equals_by_unification] at h ⊢
      all_goals first
      | exact h
      | (split at h
         · next hcond => rw [if_pos hcond]; exact ihargs p _ _ _ _ h
         · next hcond => rw [if_neg hcond]; exact h)
    · -- unifyArgs
      intro p as bs v out h
      cases as with
      | nil => rw [unifyArgs] at h ⊢; exact h
      | cons a as =>
        cases bs with
        | nil => rw [unifyArgs] at h ⊢; exact h
        | cons b bs =>
          rw [unifyArgs] at h ⊢
          split at h
          · exact Option.noConfusion h
          · next vd hd =>
            rw [ihdfs p a b _ _ hd]
            exact h
          · next vd hd =>
            rw [ihdfs p a b _ _ hd]
            exact ihargs p as bs _ _ h
    · -- equals_by_normalization
      intro p t1 t2 v out h
      cases t1 with
      | Literal x =>
        simp only [equals_by_normalization] at h ⊢
        exact ihnorm2 p _ _ _ _ h
      | Function s args =>
        simp only [equals_by_normalization] at h ⊢
        exact ihnorm2 p _ _ _ _ h
      | Normalizable s args =>
        rw [equals_by_normalization] at h ⊢
        split at h
        · next n hn =>
          split at h
          · exact Option.noConfusion h
          · next e he =>
            rw [equivalenceF_mono f n args _ he]
            exact ihdfs p e t2 _ _ h
          · next he =>
            rw [equivalenceF_mono f n args _ he]
            exact ihnorm2 p _ t2 _ _ h
        · next hn =>
          exact ihnorm2 p _ t2 _ _ h
    · -- normalizationSnd
      intro p t1 t2 v out h
      cases t2 with
      | Literal x =>
        simp only [normalizationSnd] at h ⊢
        exact h
      | Function s args =>
        simp only [normalizationSnd] at h ⊢
        exact h
      | Normalizable s args =>
        rw [normalizationSnd] at h ⊢
        split at h
        · next n hn =>
          split at h
          · exact Option.noConfusion h
          · next e he =>
            rw [equivalenceF_mono f n args _ he]
            exact ihdfs p t1 e _ _ h
          · next he =>
            rw [equivalenceF_mono f n args _ he]
            exact h
        · next hn =>
          exact h
    · -- dfsLoopLeft
      intro p es t2 v out h
      cases es with
      | nil => rw [dfsLoopLeft] at h ⊢; exact h
      | cons e es =>
        rw [dfsLoopLeft] at h ⊢
        split at h
        · exact Option.noConfusion h
        · next vd hd =>
          rw [ihdfs p e t2 _ _ hd]
          exact h
        · next vd hd =>
          rw [ihdfs p e t2 _ _ hd]
          exact ihleft p es t2 _ _ h
    · -- dfsLoopRight
      intro p t1 es v out h
      cases es with
      | nil => rw [dfsLoopRight] at h ⊢; exact h
      | cons e es =>
        rw [dfsLoopRight] at h ⊢
        split at h
        · exact Option.noConfusion h
        · next vd hd =>
          rw [ihdfs p t1 e _ _ hd]
          exact h
        · next vd hd =>
          rw [ihdfs p t1 e _ _ hd]
          exact ihright p t1 es _ _ h
    · -- premiseLoop
      intro p entries t1 t2 v out h
      cases entries with
      | nil => rw [premiseLoop] at h ⊢; exact h
      | cons kv rest =>
        obtain ⟨key, values⟩ := kv
        rw [premiseLoop] at h ⊢
        split at h
        · exact Option.noConfusion h
        · next vu hu =>
          rw [ihuni p t1 key _ _ hu]
          split at h
          · exact Option.noConfusion h
          · next vl hl =>
            rw [ihleft p values t2 _ _ hl]
            exact h
          · next vl hl =>
            rw [ihleft p values t2 _ _ hl]
            exact ihs2 p key values rest t1 t2 _ _ h
        · next vu hu =>
          rw [ihuni p t1 key _ _ hu]
          exact ihs2 p key values rest t1 t2 _ _ h
    · -- premiseStage2
      intro p key values rest t1 t2 v out h
      rw [premiseStage2] at h ⊢
      split at h
      · exact Option.noConfusion h
      · next vu hu =>
        rw [ihuni p key t2 _ _ hu]
        split at h
        · exact Option.noConfusion h
        · next vl hl =>
          rw [ihright p t1 values _ _ hl]
          exact h
        · next vl hl =>
          rw [ihright p t1 values _ _ hl]
          exact ihs3 p key values rest t1 t2 _ _ h
      · next vu hu =>
        rw [ihuni p key t2 _ _ hu]
        exact ihs3 p key values rest t1 t2 _ _ h
    · -- premiseStage3
      intro p key values rest t1 t2 v out h
      rw [premiseStage3] at h ⊢
      split at h
      · exact Option.noConfusion h
      · next vu hu =>
        rw [ihnorm p t1 key _ _ hu]
        split at h
        · exact Option.noConfusion h
        · next vl hl =>
          rw [ihleft p values t2 _ _ hl]
          exact h
        · next vl hl =>
          rw [ihleft p values t2 _ _ hl]
          exact ihs4 p key values rest t1 t2 _ _ h
      · next vu hu =>
        rw [ihnorm p t1 key _ _ hu]
        exact ihs4 p key values rest t1 t2 _ _ h
    · -- premiseStage4
      intro p key values rest t1 t2 v out h
      rw [premiseStage4] at h ⊢
      split at h
      · exact Option.noConfusion h
      · next vu hu =>
        rw [ihnorm p key t2 _ _ hu]
        split at h
        · exact Option.noConfusion h
        · next vl hl =>
          rw [ihright p t1 values _ _ hl]
          exact h
        · next vl hl =>
          rw [ihright p t1 values _ _ hl]
          exact ihloop p rest t1 t2 _ _ h
      · next vu hu =>
        rw [ihnorm p key t2 _ _ hu]
        exact ihloop p rest t1 t2 _ _ h

/-- A finished `equals` computation gives the same verdict at every larger
fuel: the answer at any sufficient fuel is the answer of the unbounded
Rust recursion. -/
theorem equals_mono_add : ∀ (k fuel : Nat) (t1 t2 : Term) (p : Premise) (b : Bool),
    equals fuel t1 t2 p = some b → equals (fuel + k) t1 t2 p = some b := by
  intro k
  induction k with
  | zero => exact fun fuel t1 t2 p b h => h
  | succ k ih =>
    intro fuel t1 t2 p b h
    have h2 := ih fuel t1 t2 p b h
    rw [equals] at h2
    show equals ((fuel + k) + 1) t1 t2 p = some b
    rw [equals]
    rcases hd : dfs (fuel + k) p t1 t2 [] with _ | out
    · rw [hd] at h2; simp at h2
    · rw [hd] at h2
      rw [(mono_bundle (fuel + k)).1 p t1 t2 [] out hd]
      exact h2

theorem equals_mono : ∀ (fuel fuel2 : Nat), fuel ≤ fuel2 →
    ∀ (t1 t2 : Term) (p : Premise) (b : Bool),
    equals fuel t1 t2 p = some b → equals fuel2 t1 t2 p = some b := by
  intro fuel fuel2 hle t1 t2 p b h
  obtain ⟨k, rfl⟩ := Nat.le.dest hle
  exact equals_mono_add k fuel t1 t2 p b h

/-- `Term::apply` recurses forever when asked to replace `Literal 1` by a
term that strictly contains `Literal 1`: every fuel is exhausted. -/
theorem c1_apply_diverges : ∀ fuel : Nat,
    Term.apply fuel (.Literal 1) (.Literal 1) (.Function 2 [.Literal 1]) = none ∧
    Term.applyList fuel [.Literal 1] (.Literal 1) (.Function 2 [.Literal 1]) = none := by
  intro fuel
  induction fuel with
  | zero => exact ⟨by rw [Term.apply], by rw [Term.applyList]⟩
  | succ f ih =>
    constructor
    · simp [Term.apply, ih.2]
    · simp [Term.applyList, ih.1]

/-- Computing the expansion of the identity alias at the C1 argument never
finishes: the substitution inside `Normalization::equivalence`
diverges. -/
theorem c1_equivalence_diverges : ∀ fuel : Nat,
    Normalization.equivalenceF fuel ⟨[1], .Literal 1⟩ [.Function 2 [.Literal 1]] = none := by
  intro fuel
  show (match applyFold fuel (Term.Literal 1) [(1, Term.Function 2 [Term.Literal 1])] with
    | none => none
    | some e => some (some e)) = none
  rw [applyFold, (c1_apply_diverges fuel).1]

theorem c1_ebn_diverges : ∀ (fuel : Nat) (v : Visited),
    equals_by_normalization fuel c1Premise c1Term (.Literal 3) v = none := by
  intro fuel v
  cases fuel with
  | zero => rw [equals_by_normalization]
  | succ f =>
    show equals_by_normalization (f+1) c1Premise
      (.Normalizable 0 [.Function 2 [.Literal 1]]) (.Literal 3) v = none
    rw [equals_by_normalization]
    have hg : c1Premise.get_normalization 0 = some ⟨[1], .Literal 1⟩ := rfl
    simp only [hg]
    rw [c1_equivalence_diverges f]

/-- C1: the claim fails on the code — there is an input on which the
engine does not terminate. With the identity alias `sym0(p1) := p1`
registered and the query `equals(sym0(f2(p1)), lit3)`, the substitution
step re-inserts the replaced atom inside its own replacement and recurses
forever, so the fueled embedding returns `none` (no answer) at every
fuel. -/
theorem c1_cyclic_alias_nontermination : ∀ fuel : Nat,
    equals fuel c1Term (.Literal 3) c1Premise = none := by
  intro fuel
  rw [equals]
  suffices h : dfs fuel c1Premise c1Term (.Literal 3) [] = none by rw [h]; rfl
  cases fuel with
  | zero => rw [dfs]
  | succ f =>
    rw [dfs]
    rw [if_neg (by decide : ¬(c1Term = Term.Literal 3))]
    rw [if_neg (by simp : ¬((c1Term, Term.Literal 3) ∈ ([] : Visited)))]
    simp only []
    cases f with
    | zero =>
      have hu : equals_by_unification 0 c1Premise c1Term (.Literal 3)
          [(c1Term, .Literal 3)] = none := by rw [equals_by_unification]
      simp only [hu]
    | succ g =>
      have hu : equals_by_unification (g+1) c1Premise c1Term (.Literal 3)
          [(c1Term, .Literal 3)] = some (false, [(c1Term, .Literal 3)]) := rfl
      simp only [hu]
      rw [c1_ebn_diverges (g+1)]

/-- C5: the claim fails on the code — the engine is not symmetric. For the
premise with aliases `sym0() := sym1()` and `sym1() := sym1()`,
`equals(sym0(), sym1())` is `true` (the expansion of `sym0()` is
syntactically `sym1()`), but `equals(sym1(), sym0())` is `false`: the
normalization step expands `sym1()` to itself, the cycle guard rejects the
already-in-progress pair, the early `return` skips expanding `sym0()`, and
every other strategy fails. Both runs terminate (the result is `some`), so
the two directions return different booleans. -/
theorem c5_asymmetry : ∀ fuel : Nat, 10 ≤ fuel →
    equals fuel c5T1 c5T2 c5Premise = some true ∧
    equals fuel c5T2 c5T1 c5Premise = some false := by
  intro fuel hf
  exact ⟨equals_mono 10 fuel hf c5T1 c5T2 c5Premise true (by decide),
    equals_mono 10 fuel hf c5T2 c5T1 c5Premise false (by decide)⟩

/-- C5 witness: the two directions at fuel 10. -/
theorem c5_asymmetry_witness :
    equals 10 c5T1 c5T2 c5Premise = some true ∧
    equals 10 c5T2 c5T1 c5Premise = some false :=
  c5_asymmetry 10 (by decide)

/-- C6: for the premise asserting `lit0 ≡ f0(lit0)`, the engine proves
`f0(lit0)` equal to `f0(f0(f0(f0(lit0))))` in both directions, and both
calls terminate (fuel 20 suffices; the answer is `some`, not `none`). -/
theorem c6_recursive_term : ∀ fuel : Nat, 20 ≤ fuel →
    equals fuel c6Lhs c6Rhs c6Premise = some true ∧
    equals fuel c6Rhs c6Lhs c6Premise = some true := by
  intro fuel hf
  exact ⟨equals_mono 20 fuel hf c6Lhs c6Rhs c6Premise true (by decide),
    equals_mono 20 fuel hf c6Rhs c6Lhs c6Premise true (by decide)⟩

/-- C6 witness: both directions at fuel 20. -/
theorem c6_recursive_term_witness :
    equals 20 c6Lhs c6Rhs c6Premise = some true ∧
    equals 20 c6Rhs c6Lhs c6Premise = some true :=
  c6_recursive_term 20 (by decide)

/-! ### The normalization step's early return (C3) -/

/-- C3 counterexample: `term1 = sym0()` has a registered arity-matching
alias and its expansion test against `term2 = sym1()` runs and fails
(`dfs` answers `false`); `term2` also has a registered arity-matching
alias, and testing `term1` against `term2`'s expansion `sym0()` succeeds;
yet `equals_by_normalization` answers `false` — the symmetric test the
claim promises after a failed (not merely inapplicable) first test is
never attempted. -/
theorem c3_counterexample :
    c3Premise.get_normalization 0 = some ⟨[], .Literal 5⟩ ∧
    Normalization.equivalenceF 10 ⟨[], .Literal 5⟩ [] = some (some (.Literal 5)) ∧
    dfs 10 c3Premise (.Literal 5) c3T2 c3Visited = some (false, c3Visited) ∧
    c3Premise.get_normalization 1 = some ⟨[], c3T1⟩ ∧
    Normalization.equivalenceF 10 ⟨[], c3T1⟩ [] = some (some c3T1) ∧
    dfs 10 c3Premise c3T1 c3T1 c3Visited = some (true, c3Visited) ∧
    equals_by_normalization 11 c3Premise c3T1 c3T2 c3Visited = some (false, c3Visited) := by
  decide

/-- C3 amended: when `term1` is Expandable with a registered,
arity-matching alias, the normalization step returns the result of testing
`term1`'s expansion against `term2` directly — whether that test succeeds
or fails — and `term2`'s expansion is not consulted; the symmetric
expansion of `term2` is tested (against the original `term1`) only when
`term1`'s path is inapplicable (not Expandable, no registered alias, or
arity mismatch). -/
theorem c3_normalization_order : ∀ (fuel : Nat) (p : Premise) (t1 t2 : Term)
    (v : Visited) (e1 e2 : Term),
    (expandF fuel p t1 = some (some e1) →
      equals_by_normalization (fuel+1) p t1 t2 v = dfs fuel p e1 t2 v) ∧
    (expandF (fuel+1) p t1 = some none → expandF fuel p t2 = some (some e2) →
      equals_by_normalization (fuel+2) p t1 t2 v = dfs fuel p t1 e2 v) := by
  intro fuel p t1 t2 v e1 e2
  constructor
  · intro h1
    cases t1 with
    | Literal x => simp [expandF] at h1
    | Function s args => simp [expandF] at h1
    | Normalizable s args =>
      rw [expandF] at h1
      rcases hg : p.get_normalization s with _ | n
      · rw [hg] at h1; simp at h1
      · simp only [hg] at h1
        rw [equals_by_normalization]
        simp only [hg, h1]
  · intro h1 h2
    have hsnd : normalizationSnd (fuel+1) p t1 t2 v = dfs fuel p t1 e2 v := by
      cases t2 with
      | Literal x => simp [expandF] at h2
      | Function s args => simp [expandF] at h2
      | Normalizable s args =>
        rw [expandF] at h2
        rcases hg : p.get_normalization s with _ | n
        · rw [hg] at h2; simp at h2
        · simp only [hg] at h2
          rw [normalizationSnd]
          simp only [hg, h2]
    cases t1 with
    | Literal x =>
      simp only [equals_by_normalization]
      exact hsnd
    | Function s args =>
      simp only [equals_by_normalization]
      exact hsnd
    | Normalizable s args =>
      rw [expandF] at h1
      rcases hg : p.get_normalization s with _ | n
      · rw [hg] at h1
        rw [equals_by_normalization]
        simp only [hg]
        exact hsnd
      · simp only [hg] at h1
        rw [equals_by_normalization]
        simp only [hg, h1]
        exact hsnd

/-- C3 amended witness: at the counterexample input the normalization step
equals the first expansion test, exactly as the amended claim states. -/
theorem c3_normalization_order_witness :
    equals_by_normalization 11 c3Premise c3T1 c3T2 c3Visited =
      dfs 10 c3Premise (.Literal 5) c3T2 c3Visited :=
  (c3_normalization_order 10 c3Premise c3T1 c3T2 c3Visited (.Literal 5) (.Literal 5)).1 rfl

/-! ### The expansion contract of a normalization (C9) -/

theorem spec_apply_bundle : ∀ fuel : Nat,
    (∀ t fr toT, specReplace fuel t fr toT = Term.apply fuel t fr toT) ∧
    (∀ as fr toT, specScanList fuel as fr toT = Term.applyList fuel as fr toT) := by
  intro fuel
  induction fuel with
  | zero =>
    exact ⟨fun t fr toT => by rw [specReplace, Term.apply],
      fun as fr toT => by rw [specScanList, Term.applyList]⟩
  | succ f ih =>
    constructor
    · intro t fr toT
      by_cases h : t = fr
      · cases toT with
        | Literal l => simp [specReplace, specScan, Term.apply, h]
        | Function s args => simp [specReplace, specScan, Term.apply, h, ih.2]
        | Normalizable s args => simp [specReplace, specScan, Term.apply, h, ih.2]
      · cases t with
        | Literal l => simp [specReplace, specScan, Term.apply, h]
        | Function s args => simp [specReplace, specScan, Term.apply, h, ih.2]
        | Normalizable s args => simp [specReplace, specScan, Term.apply, h, ih.2]
    · intro as fr toT
      cases as with
      | nil => rw [specScanList, Term.applyList]
      | cons a as =>
        rw [specScanList, Term.applyList, ih.1 a fr toT]
        cases hh : Term.apply f a fr toT with
        | none => rfl
        | some a2 => rw [ih.2 as fr toT]

theorem specSequential_eq : ∀ (l : List (Nat × Term)) (fuel : Nat) (e : Term),
    specSequential fuel e l = applyFold fuel e l := by
  intro l
  induction l with
  | nil => intro fuel e; rw [specSequential, applyFold]
  | cons pa rest ih =>
    intro fuel e
    obtain ⟨p, a⟩ := pa
    rw [specSequential, applyFold, (spec_apply_bundle fuel).1 e (.Literal p) a]
    cases hh : Term.apply fuel e (.Literal p) a with
    | none => rfl
    | some e2 => exact ih fuel e2

/-- C9: the expansion contract. `Normalization::equivalence` returns
Rust's `None` exactly when the argument count differs from the parameter
count, and otherwise behaves as the spec's sequential left-to-right
substitution (each parameter replaced everywhere, re-scanning inserted
subtrees, first parameter first). -/
theorem c9_expansion_contract : ∀ (fuel : Nat) (n : Normalization) (args : List Term),
    (Normalization.equivalenceF fuel n args = some none ↔
      n.parameters.length ≠ args.length) ∧
    Normalization.equivalenceF fuel n args = specExpansion fuel n args := by
  intro fuel n args
  constructor
  · rw [Normalization.equivalenceF]
    by_cases h : n.parameters.length = args.length
    · rw [if_pos h]
      cases hh : applyFold fuel n.equivalence (n.parameters.zip args) with
      | none => exact iff_of_false (by simp) (fun hc => hc h)
      | some e => exact iff_of_false (by simp) (fun hc => hc h)
    · rw [if_neg h]
      exact iff_of_true rfl h
  · rw [Normalization.equivalenceF, specExpansion, specSequential_eq]

end FolEquality
